import Mathlib

/-!
Verification of the reply-scoring and tokenization layer of the cobe
chatbot (files cobe/scoring.py and cobe/tokenizers.py).

Python floats are embedded as real numbers, Python ints as integers,
text as lists of Unicode code points (naturals), and the per-round
probability cache of the classic scorer as an association list keyed by
edge identifier.  Character-level predicates of the Python runtime
(str.isalpha, str.upper, str.lower, the regex classes for word,
whitespace and digit characters) are modelled by their exact ASCII
semantics; code points outside ASCII are case-invariant and classified
as neither word, digit, nor whitespace characters in this model.
-/

namespace Cobe

/-- An edge of a candidate reply, consumed read-only by the scorers.
The opaque hashable identifier is modelled as a natural number and the
precomputed probability as a real number. -/
structure Edge where
  edge_id : Nat
  has_space : Bool
  probability : ℝ

/-- The graph collaborator as consumed by the scorers: an integer Markov
order and an on-demand edge-probability query. -/
structure Graph where
  order : ℤ
  get_edge_probability : Edge → ℝ

/-- A candidate reply: an ordered sequence of edges plus its owning graph. -/
structure Reply where
  edges : List Edge
  graph : Graph

/-- The base scorer state (class Scorer in cobe/scoring.py): the reverse
flag fixed at construction. -/
structure Scorer where
  reverse : Bool

/-- Scorer.finish: if the scorer was constructed in reverse mode the
score is replaced by one minus the score. -/
noncomputable def Scorer.finish (sc : Scorer) (score : ℝ) : ℝ :=
  if sc.reverse then 1 - score else score

/-- Scorer.normalize: negative scores pass through unchanged, otherwise
the score is mapped through 1 - 1 / (1 + score). -/
noncomputable def Scorer.normalize (score : ℝ) : ℝ :=
  if score < 0 then score else 1 - 1 / (1 + score)

/-- Result values of a Python call for the base Scorer.score method: a
returned object or a raised one.  The NotImplementedError class object is
modelled as a distinguished value. -/
inductive PyObj where
  | float (x : ℝ)
  | notImplementedErrorClass

/-- Outcome of a Python call: the method can return a value or raise one. -/
inductive CallOutcome where
  | ret (v : PyObj)
  | raised (v : PyObj)

/-- The base Scorer.score body is the single statement
return NotImplementedError: it returns the error class object as a value
and raises nothing. -/
def Scorer.score (_sc : Scorer) (_r : Reply) : CallOutcome :=
  CallOutcome.ret PyObj.notImplementedErrorClass

/-- A scorer group holds an ordered list of weight/scorer pairs; each
member contributes its score method, modelled as a function on replies. -/
structure ScorerGroup where
  scorers : List (ℝ × (Reply → ℝ))

/-- ScorerGroup.add_scorer appends a weight/scorer pair. -/
def ScorerGroup.add_scorer (g : ScorerGroup) (weight : ℝ) (scorer : Reply → ℝ) :
    ScorerGroup :=
  ⟨g.scorers ++ [(weight, scorer)]⟩

/-- ScorerGroup.score: starts from zero and adds weight times member
score for every registered pair, in order. -/
noncomputable def ScorerGroup.score (g : ScorerGroup) (r : Reply) : ℝ :=
  g.scorers.foldl (fun acc ws => acc + ws.1 * ws.2 r) (0 : ℝ)

/-- The classic scorer's per-round probability cache, a Python dict keyed
by edge identifier, modelled as an association list (newest entry first). -/
abbrev Cache := List (Nat × ℝ)

/-- Dictionary lookup in the probability cache. -/
def cacheFind (c : Cache) (k : Nat) : Option ℝ :=
  (c.find? (fun kv => kv.1 = k)).map (fun kv => kv.2)

/-- Loop body of the information accumulation in CobeScorer.score: try
the cache; on a KeyError query the graph and store the result; in both
cases add the negated base-2 logarithm of the probability. -/
noncomputable def scoreStep (g : Graph) (acc : ℝ × Cache) (e : Edge) : ℝ × Cache :=
  match cacheFind acc.2 e.edge_id with
  | some p => (acc.1 + -Real.logb 2 p, acc.2)
  | none =>
    let p := g.get_edge_probability e
    (acc.1 + -Real.logb 2 p, (e.edge_id, p) :: acc.2)

/-- The length-dependent damping at the end of CobeScorer.score, exactly
as written in the source: an if branch for counts above eight and an
elif branch for counts of at least sixteen. -/
noncomputable def dampInfo (info : ℝ) (n : ℤ) : ℝ :=
  if 8 < n then info / Real.sqrt ((n : ℝ) - 1)
  else if 16 ≤ n then info / (n : ℝ)
  else info

/-- CobeScorer.score.  The scorer is constructed with the default
forward mode, so finishing uses a Scorer with reverse off.  The cache is
threaded explicitly: the function returns the score together with the
cache as it stands after the call. -/
noncomputable def CobeScorer.score (cache : Cache) (r : Reply) : ℝ × Cache :=
  let ic := r.edges.foldl (scoreStep r.graph) ((0 : ℝ), cache)
  let n0 : ℤ := (r.edges.length : ℤ) - (r.graph.order - 1) * 2
  let n_words : ℤ := r.edges.foldl (fun n e => if e.has_space then n + 1 else n) n0
  ((Scorer.mk false).finish (Scorer.normalize (dampInfo ic.1 n_words)), ic.2)

/-- CobeScorer.end (named end_ here because end is a Lean keyword):
unconditionally replaces the cache with a fresh empty dict. -/
def CobeScorer.end_ (_cache : Cache) (_r : Reply) : Cache := []

/-- Python float division: raises ZeroDivisionError on a zero divisor,
modelled as none. -/
noncomputable def pyDiv (a b : ℝ) : Option ℝ :=
  if b = 0 then none else some (a / b)

/-- InformationScorer.score: sums the negated base-2 logarithm of each
edge's precomputed probability, divides by the number of edges (a
division that raises when the reply has no edges), then normalizes and
finishes in forward mode. -/
noncomputable def InformationScorer.score (r : Reply) : Option ℝ :=
  let info := r.edges.foldl (fun a e => a + -Real.logb 2 e.probability) (0 : ℝ)
  (pyDiv info (r.edges.length : ℝ)).map
    (fun i => (Scorer.mk false).finish (Scorer.normalize i))

/-- Claim-side reading of the cache discipline of CobeScorer.score: for
each edge in order, take the probability from the cache keyed by edge
identifier or, on a miss, query the graph and store the result.  Returns
the list of probabilities used together with the final cache. -/
noncomputable def edgeProbs (g : Graph) : Cache → List Edge → List ℝ × Cache
  | c, [] => ([], c)
  | c, e :: es =>
    match cacheFind c e.edge_id with
    | some p =>
      let rest := edgeProbs g c es
      (p :: rest.1, rest.2)
    | none =>
      let p := g.get_edge_probability e
      let rest := edgeProbs g ((e.edge_id, p) :: c) es
      (p :: rest.1, rest.2)

/-- Claim-side total self-information of a reply: the sum of the negated
base-2 logarithms of the probabilities delivered by the cache-or-query
process. -/
noncomputable def infoOf (g : Graph) (c : Cache) (es : List Edge) : ℝ :=
  ((edgeProbs g c es).1.map (fun p => -Real.logb 2 p)).sum

/-- Claim-side legacy token-count approximation: the number of edges
minus twice (order minus one), plus one for every edge whose has_space
flag is set. -/
def nWords (r : Reply) : ℤ :=
  (r.edges.length : ℤ) - 2 * (r.graph.order - 1) +
    (r.edges.countP (fun e => e.has_space) : ℤ)

/-- The damping logic with the unreachable elif branch removed. -/
noncomputable def dampNoElif (info : ℝ) (n : ℤ) : ℝ :=
  if 8 < n then info / Real.sqrt ((n : ℝ) - 1) else info

/-- CobeScorer.score rewritten with the elif branch of the damping
removed, used to state that the removal does not change the function. -/
noncomputable def cobeScoreNoElif (cache : Cache) (r : Reply) : ℝ × Cache :=
  let ic := r.edges.foldl (scoreStep r.graph) ((0 : ℝ), cache)
  let n0 : ℤ := (r.edges.length : ℤ) - (r.graph.order - 1) * 2
  let n_words : ℤ := r.edges.foldl (fun n e => if e.has_space then n + 1 else n) n0
  ((Scorer.mk false).finish (Scorer.normalize (dampNoElif ic.1 n_words)), ic.2)

lemma foldl_scoreStep (g : Graph) :
    ∀ (es : List Edge) (c : Cache) (a : ℝ),
      es.foldl (scoreStep g) (a, c) = (a + infoOf g c es, (edgeProbs g c es).2) := by
  intro es
  induction es with
  | nil => intro c a; simp [infoOf, edgeProbs]
  | cons e es ih =>
    intro c a
    rcases h : cacheFind c e.edge_id with _ | p
    · have hstep : scoreStep g (a, c) e =
          (a + -Real.logb 2 (g.get_edge_probability e),
            (e.edge_id, g.get_edge_probability e) :: c) := by
        simp [scoreStep, h]
      rw [List.foldl_cons, hstep, ih]
      have hinfo : infoOf g c (e :: es) =
          -Real.logb 2 (g.get_edge_probability e) +
            infoOf g ((e.edge_id, g.get_edge_probability e) :: c) es := by
        simp [infoOf, edgeProbs, h]
      have hcache : (edgeProbs g c (e :: es)).2 =
          (edgeProbs g ((e.edge_id, g.get_edge_probability e) :: c) es).2 := by
        simp [edgeProbs, h]
      rw [hinfo, hcache]
      ring_nf
    · have hstep : scoreStep g (a, c) e = (a + -Real.logb 2 p, c) := by
        simp [scoreStep, h]
      rw [List.foldl_cons, hstep, ih]
      have hinfo : infoOf g c (e :: es) = -Real.logb 2 p + infoOf g c es := by
        simp [infoOf, edgeProbs, h]
      have hcache : (edgeProbs g c (e :: es)).2 = (edgeProbs g c es).2 := by
        simp [edgeProbs, h]
      rw [hinfo, hcache]
      ring_nf

lemma foldl_nwords :
    ∀ (es : List Edge) (n : ℤ),
      es.foldl (fun n e => if e.has_space then n + 1 else n) n =
        n + (es.countP (fun e => e.has_space) : ℤ) := by
  intro es
  induction es with
  | nil => intro n; simp
  | cons e es ih =>
    intro n
    rcases h : e.has_space with _ | _
    · simp only [List.foldl_cons, h, if_neg Bool.false_ne_true, ih,
        List.countP_cons, h]
      simp
    · simp only [List.foldl_cons, h, if_pos rfl, ih, List.countP_cons, h]
      push_cast
      ring

/-- Decomposition of CobeScorer.score into the claim-side pieces: the
score is finish of normalize of the damped accumulated information, the
token count is the legacy approximation, and the returned cache is the
one produced by the cache-or-query process. -/
lemma cobeScore_eq (c : Cache) (r : Reply) :
    CobeScorer.score c r =
      ((Scorer.mk false).finish
          (Scorer.normalize (dampInfo (infoOf r.graph c r.edges) (nWords r))),
        (edgeProbs r.graph c r.edges).2) := by
  have hn : (r.edges.length : ℤ) - (r.graph.order - 1) * 2 +
      (r.edges.countP (fun e => e.has_space) : ℤ) = nWords r := by
    unfold nWords; ring
  simp only [CobeScorer.score, foldl_scoreStep, foldl_nwords, zero_add]
  rw [hn]

lemma damp_eq (info : ℝ) (n : ℤ) : dampInfo info n = dampNoElif info n := by
  unfold dampInfo dampNoElif
  by_cases h : 8 < n
  · simp [h]
  · have h16 : ¬ 16 ≤ n := by omega
    simp [h, h16]

/-- C1.  CobeScorer.score accumulates the total self-information over the
reply's edges through the per-round cache (querying and storing on a
miss), computes the legacy token count as the number of edges minus twice
(order minus one) plus one per has_space edge, damps the information by
length, and returns finish of normalize of the damped information,
together with the updated cache. -/
theorem claim_C1 :
    ∀ (c : Cache) (r : Reply),
      CobeScorer.score c r =
        ((Scorer.mk false).finish
            (Scorer.normalize (dampInfo (infoOf r.graph c r.edges) (nWords r))),
          (edgeProbs r.graph c r.edges).2) :=
  fun c r => cobeScore_eq c r

/-- C2.  Whenever the approximate token count is at least sixteen the
accumulated information is divided by the square root of the count minus
one, never by the count itself; the elif branch is unreachable, so the
damping (and with it the whole scorer) is unchanged when that branch is
removed. -/
theorem claim_C2 :
    ∀ (info : ℝ) (n : ℤ) (c : Cache) (r : Reply),
      (16 ≤ n → dampInfo info n = info / Real.sqrt ((n : ℝ) - 1)) ∧
      dampInfo info n = dampNoElif info n ∧
      CobeScorer.score c r = cobeScoreNoElif c r := by
  intro info n c r
  refine ⟨?_, damp_eq info n, ?_⟩
  · intro h16
    have h8 : 8 < n := by omega
    simp [dampInfo, h8]
  · unfold CobeScorer.score cobeScoreNoElif
    simp only [damp_eq]

theorem claim_C2_witness :
    16 ≤ (16 : ℤ) ∧ dampInfo 2 16 = 2 / Real.sqrt (((16 : ℤ) : ℝ) - 1) :=
  ⟨by norm_num,
    (claim_C2 2 16 [] ⟨[], ⟨1, fun _ => (1 : ℝ)⟩⟩).1 (by norm_num)⟩

/-- C3.  On non-negative inputs normalize lands in the half-open unit
interval, is zero at zero and strictly increasing; negative inputs are
returned unchanged. -/
theorem claim_C3 :
    ∀ (raw a b : ℝ),
      (0 ≤ raw → 0 ≤ Scorer.normalize raw ∧ Scorer.normalize raw < 1) ∧
      Scorer.normalize 0 = 0 ∧
      (0 ≤ a → a < b → Scorer.normalize a < Scorer.normalize b) ∧
      (raw < 0 → Scorer.normalize raw = raw) := by
  intro raw a b
  refine ⟨?_, ?_, ?_, ?_⟩
  · intro h
    have hlt : ¬ raw < 0 := not_lt.mpr h
    have hp : (0 : ℝ) < 1 + raw := by linarith
    constructor
    · simp only [Scorer.normalize, if_neg hlt, sub_nonneg]
      rw [div_le_one hp]
      linarith
    · simp only [Scorer.normalize, if_neg hlt, sub_lt_self_iff]
      positivity
  · simp [Scorer.normalize]
  · intro ha hab
    have ha' : ¬ a < 0 := not_lt.mpr ha
    have hb' : ¬ b < 0 := not_lt.mpr (by linarith)
    have hpa : (0 : ℝ) < 1 + a := by linarith
    have hq : 1 / (1 + b) < 1 / (1 + a) :=
      one_div_lt_one_div_of_lt hpa (by linarith)
    simp only [Scorer.normalize, if_neg ha', if_neg hb']
    linarith
  · intro h
    simp [Scorer.normalize, h]

theorem claim_C3_witness :
    (0 ≤ (3 : ℝ) ∧ 0 ≤ Scorer.normalize 3 ∧ Scorer.normalize 3 < 1) ∧
    (0 ≤ (0 : ℝ) ∧ (0 : ℝ) < 1 ∧ Scorer.normalize 0 < Scorer.normalize 1) ∧
    ((-2 : ℝ) < 0 ∧ Scorer.normalize (-2) = -2) :=
  ⟨⟨by norm_num, (claim_C3 3 0 1).1 (by norm_num)⟩,
    ⟨by norm_num, by norm_num, (claim_C3 3 0 1).2.2.1 (by norm_num) (by norm_num)⟩,
    ⟨by norm_num, (claim_C3 (-2) 0 1).2.2.2 (by norm_num)⟩⟩

/-- C4.  A scorer constructed in reverse mode finishes every score to one
minus what the same scorer in forward mode would return. -/
theorem claim_C4 :
    ∀ s : ℝ, (Scorer.mk true).finish s = 1 - (Scorer.mk false).finish s := by
  intro s
  simp [Scorer.finish]

lemma foldl_weighted_sum (r : Reply) :
    ∀ (l : List (ℝ × (Reply → ℝ))) (a : ℝ),
      l.foldl (fun acc ws => acc + ws.1 * ws.2 r) a =
        a + (l.map (fun ws => ws.1 * ws.2 r)).sum := by
  intro l
  induction l with
  | nil => intro a; simp
  | cons ws l ih =>
    intro a
    simp only [List.foldl_cons, ih, List.map_cons, List.sum_cons]
    ring

/-- C5.  A scorer group scores a reply as the weighted sum of its member
scores with no further normalization: an empty group returns zero and a
two-member group returns exactly the two weighted member scores added. -/
theorem claim_C5 :
    ∀ (g : ScorerGroup) (r : Reply) (w1 w2 : ℝ) (s1 s2 : Reply → ℝ),
      ScorerGroup.score ⟨[]⟩ r = 0 ∧
      ScorerGroup.score ⟨[(w1, s1), (w2, s2)]⟩ r = w1 * s1 r + w2 * s2 r ∧
      ScorerGroup.score g r = (g.scorers.map (fun ws => ws.1 * ws.2 r)).sum := by
  intro g r w1 w2 s1 s2
  refine ⟨?_, ?_, ?_⟩
  · simp [ScorerGroup.score]
  · simp only [ScorerGroup.score, List.foldl_cons, List.foldl_nil]
    ring
  · simp only [ScorerGroup.score, foldl_weighted_sum, zero_add]

/-- C8.  The base Scorer.score returns the NotImplementedError class
object itself: it raises nothing and never returns a float, so the code
diverges from the specified raising behaviour. -/
theorem claim_C8 :
    ∀ (sc : Scorer) (r : Reply),
      Scorer.score sc r = CallOutcome.ret PyObj.notImplementedErrorClass ∧
      (∀ v, Scorer.score sc r ≠ CallOutcome.raised v) ∧
      (∀ x, Scorer.score sc r ≠ CallOutcome.ret (PyObj.float x)) := by
  intro sc r
  refine ⟨rfl, ?_, ?_⟩
  · intro v h
    simp [Scorer.score] at h
  · intro x h
    simp [Scorer.score] at h

/-- C9.  CobeScorer.end empties the probability cache whatever it held,
so a subsequent score call on an edge whose identifier was cached before
the end call queries the graph again; with the stale cache still in
place the cached value would have been used instead. -/
theorem claim_C9 :
    ∀ (c : Cache) (r : Reply) (g : Graph) (e : Edge) (q : ℝ),
      CobeScorer.end_ c r = [] ∧
      cacheFind (CobeScorer.end_ c r) e.edge_id = none ∧
      CobeScorer.score (CobeScorer.end_ c r) ⟨[e], g⟩ =
        ((Scorer.mk false).finish
            (Scorer.normalize
              (dampInfo (-Real.logb 2 (g.get_edge_probability e)) (nWords ⟨[e], g⟩))),
          [(e.edge_id, g.get_edge_probability e)]) ∧
      (CobeScorer.score [(e.edge_id, q)] ⟨[e], g⟩).1 =
        (Scorer.mk false).finish
          (Scorer.normalize (dampInfo (-Real.logb 2 q) (nWords ⟨[e], g⟩))) := by
  intro c r g e q
  have he : CobeScorer.end_ c r = [] := rfl
  refine ⟨rfl, by simp [CobeScorer.end_, cacheFind], ?_, ?_⟩
  · rw [he, cobeScore_eq]
    have hfind : cacheFind [] e.edge_id = none := by simp [cacheFind]
    have hinfo : infoOf g [] [e] = -Real.logb 2 (g.get_edge_probability e) := by
      simp [infoOf, edgeProbs, hfind]
    have hcache : (edgeProbs g [] [e]).2 = [(e.edge_id, g.get_edge_probability e)] := by
      simp [edgeProbs, hfind]
    dsimp only
    rw [hinfo, hcache]
  · rw [cobeScore_eq]
    have hfind : cacheFind [(e.edge_id, q)] e.edge_id = some q := by
      simp [cacheFind]
    have hinfo : infoOf g [(e.edge_id, q)] [e] = -Real.logb 2 q := by
      simp [infoOf, edgeProbs, hfind]
    dsimp only
    rw [hinfo]

/-- C10.  On a reply with no edges InformationScorer.score divides the
accumulated information by zero and therefore produces no score. -/
theorem claim_C10 :
    ∀ r : Reply, r.edges = [] → InformationScorer.score r = none := by
  intro r h
  simp [InformationScorer.score, h, pyDiv]

theorem claim_C10_witness :
    (Reply.mk [] (Graph.mk 1 (fun _ => 1))).edges = [] ∧
    InformationScorer.score (Reply.mk [] (Graph.mk 1 (fun _ => 1))) = none :=
  ⟨rfl, claim_C10 _ rfl⟩

/-- Whitespace character class of the Python runtime (str.isspace and
the regex class for whitespace), restricted to ASCII. -/
def isSpaceCh (c : Nat) : Bool :=
  c = 32 || c = 9 || c = 10 || c = 11 || c = 12 || c = 13

/-- Alphabetic character class (str.isalpha), restricted to ASCII. -/
def isAlphaCh (c : Nat) : Bool :=
  (65 ≤ c && c ≤ 90) || (97 ≤ c && c ≤ 122)

/-- Decimal digit character class. -/
def isDigitCh (c : Nat) : Bool :=
  48 ≤ c && c ≤ 57

/-- Word character class of the regex escape for word characters,
restricted to ASCII: letters, digits and the underscore. -/
def isWordCh (c : Nat) : Bool :=
  isAlphaCh c || isDigitCh c || c = 95

/-- The character class of the CobeTokenizer word alternative: word
characters plus apostrophe and hyphen. -/
def isWordAposDash (c : Nat) : Bool :=
  isWordCh c || c = 39 || c = 45

/-- Simple upper-case mapping (unicode.upper), exact on ASCII and the
identity elsewhere in this model. -/
def upperCh (c : Nat) : Nat :=
  if 97 ≤ c ∧ c ≤ 122 then c - 32 else c

/-- Simple lower-case mapping (unicode.lower), exact on ASCII and the
identity elsewhere in this model. -/
def lowerCh (c : Nat) : Nat :=
  if 65 ≤ c ∧ c ≤ 90 then c + 32 else c

/-- str.split with no separator: skip whitespace, collect maximal
non-whitespace runs.  The fuel argument is instantiated with the length
of the list, which every call consumes at least one element of. -/
def pySplitAux : Nat → List Nat → List (List Nat)
  | 0, _ => []
  | _ + 1, [] => []
  | fuel + 1, c :: rest =>
    if isSpaceCh c then pySplitAux fuel rest
    else
      (c :: rest).takeWhile (fun d => !isSpaceCh d) ::
        pySplitAux fuel ((c :: rest).dropWhile (fun d => !isSpaceCh d))

/-- WhitespaceTokenizer.split: text.split(). -/
def wsSplit (l : List Nat) : List (List Nat) :=
  pySplitAux l.length l

/-- WhitespaceTokenizer.join: tokens joined with a single space. -/
def wsJoin (ws : List (List Nat)) : List Nat :=
  List.intercalate [32] ws

/-- Normalization induced by the whitespace tokenizer. -/
def wsNorm (x : List Nat) : List Nat :=
  wsJoin (wsSplit x)

/-- Character class index used by the MegaHAL split regex after
upper-casing: upper-case letters and apostrophe, digits, everything
else.  The three alternatives are disjoint and cover every character, so
the regex scan yields exactly the maximal runs of equal class. -/
def mhClass (c : Nat) : Nat :=
  if (65 ≤ c && c ≤ 90) || c = 39 then 0
  else if 48 ≤ c && c ≤ 57 then 1
  else 2

/-- Grouping of a string into maximal runs of characters with equal
class, the meaning of the MegaHAL findall. -/
def groupRunsAux (f : Nat → Nat) : Nat → List Nat → List (List Nat)
  | 0, _ => []
  | _ + 1, [] => []
  | fuel + 1, c :: rest =>
    (c :: rest).takeWhile (fun d => f d == f c) ::
      groupRunsAux f fuel ((c :: rest).dropWhile (fun d => f d == f c))

/-- The terminator fix-up of MegaHALTokenizer.split: if the phrase does
not already end in period, exclamation mark or question mark, a period
is appended. -/
def withTerm (l : List Nat) : List Nat :=
  match l.getLast? with
  | none => l
  | some c => if c = 46 ∨ c = 33 ∨ c = 63 then l else l ++ [46]

/-- MegaHALTokenizer.split: terminator fix-up, upper-casing, then the
class-run findall. -/
def megaSplit (phrase : List Nat) : List (List Nat) :=
  if phrase.isEmpty then []
  else
    let u := (withTerm phrase).map upperCh
    groupRunsAux mhClass u.length u

/-- Membership of the optional previous output character in the
sentence-terminator set, as tested by MegaHALTokenizer.join. -/
def isTermOpt (p : Option Nat) : Bool :=
  match p with
  | some d => d = 46 || d = 63 || d = 33
  | none => false

/-- The capitalization loop of MegaHALTokenizer.join over the
concatenated characters.  The index, the start flag and the previously
written character are threaded exactly as in the source: an alphabetic
character is upper-cased when the start flag is set and lower-cased
otherwise, clearing the flag; a non-alphabetic character is kept and
sets the flag when the index is above two, the previous written
character is a terminator and the current character is whitespace. -/
def joinCapsAux : List Nat → Nat → Bool → Option Nat → List Nat
  | [], _, _, _ => []
  | c :: rest, i, start, prev =>
    if isAlphaCh c then
      let c2 := if start then upperCh c else lowerCh c
      c2 :: joinCapsAux rest (i + 1) false (some c2)
    else
      let start2 := if 2 < i ∧ isTermOpt prev ∧ isSpaceCh c then true else start
      c :: joinCapsAux rest (i + 1) start2 (some c)

/-- MegaHALTokenizer.join: concatenate the tokens and re-derive the
capitalization. -/
def megaJoin (words : List (List Nat)) : List Nat :=
  joinCapsAux words.flatten 0 true none

/-- Normalization induced by the MegaHAL tokenizer. -/
def megaNorm (x : List Nat) : List Nat :=
  megaJoin (megaSplit x)

/-- Removal of trailing whitespace. -/
def rtrimSpaces (l : List Nat) : List Nat :=
  (l.reverse.dropWhile isSpaceCh).reverse

/-- str.strip: removal of leading and trailing whitespace. -/
def strip (l : List Nat) : List Nat :=
  rtrimSpaces (l.dropWhile isSpaceCh)

/-- The leftmost match of the CobeTokenizer regex at the start of the
non-empty string with first character c and remainder rest, alternatives
tried in order: a word run followed by a colon and a non-empty non-space
run (urls); a run of word, apostrophe and hyphen characters; a non-word
non-space character followed by further non-word characters up to the
last non-word non-space one; a single non-word non-space character; a
whitespace run. -/
def cobeTok (c : Nat) (rest : List Nat) : List Nat :=
  if isSpaceCh c then (c :: rest).takeWhile isSpaceCh
  else if isWordCh c then
    if ((c :: rest).dropWhile isWordCh).head? = some 58 ∧
        ((c :: rest).dropWhile isWordCh).tail.takeWhile (fun d => !isSpaceCh d) ≠ [] then
      (c :: rest).takeWhile isWordCh ++
        58 :: ((c :: rest).dropWhile isWordCh).tail.takeWhile (fun d => !isSpaceCh d)
    else (c :: rest).takeWhile isWordAposDash
  else if isWordAposDash c then (c :: rest).takeWhile isWordAposDash
  else
    if (rtrimSpaces (rest.takeWhile (fun d => !isWordCh d))).isEmpty then [c]
    else c :: rtrimSpaces (rest.takeWhile (fun d => !isWordCh d))

/-- The regex findall of CobeTokenizer.split: every position starts a
match, so the scan partitions the string into successive tokens.  The
fuel argument is instantiated with the length of the string, which every
token consumes at least one character of. -/
def cobeFindallAux : Nat → List Nat → List (List Nat)
  | 0, _ => []
  | _ + 1, [] => []
  | fuel + 1, c :: rest =>
    cobeTok c rest :: cobeFindallAux fuel ((c :: rest).drop (cobeTok c rest).length)

/-- The token list of the CobeTokenizer regex scan. -/
def cobeFindall (l : List Nat) : List (List Nat) :=
  cobeFindallAux l.length l

/-- The collapse step of CobeTokenizer.split: a token whose first
character is the space character and whose length exceeds one is
replaced by a single space. -/
def collapseTok (t : List Nat) : List Nat :=
  if t.head? = some 32 ∧ 1 < t.length then [32] else t

/-- The collapse pass over the token list. -/
def collapse (ts : List (List Nat)) : List (List Nat) :=
  ts.map collapseTok

/-- CobeTokenizer.split: strip, empty check, findall, collapse. -/
def cobeSplit (x : List Nat) : List (List Nat) :=
  if (strip x).isEmpty then [] else collapse (cobeFindall (strip x))

/-- CobeTokenizer.join: plain concatenation. -/
def cobeJoin (ts : List (List Nat)) : List Nat :=
  ts.flatten

/-- Normalization induced by the Cobe tokenizer. -/
def cobeNorm (x : List Nat) : List Nat :=
  cobeJoin (cobeSplit x)

/-- C7 counterexample.  On the input a TAB TAB b the whitespace token
consists of two tab characters: its first character is not the space
character, so the collapse leaves it untouched and the result contains a
whitespace token of length two. -/
theorem claim_C7_cex :
    cobeSplit [97, 9, 9, 98] = [[97], [9, 9], [98]] ∧
    ¬(∀ t ∈ cobeSplit [97, 9, 9, 98],
        (∀ ch ∈ t, isSpaceCh ch = true) → t.length ≤ 1) := by
  decide

/-- C7 as amended: only a whitespace token whose first character is the
space character (and which is longer than one character) is collapsed to
a single space; consequently no token of the result is a run of the
space character longer than one, and the multi-space example still
splits into word, single space, word. -/
theorem claim_C7_amended :
    (∀ (x t : List Nat), t ∈ cobeSplit x →
        ¬(t.head? = some 32 ∧ 1 < t.length) ∧
        ((∀ ch ∈ t, ch = 32) → t.length ≤ 1)) ∧
    cobeSplit [97, 32, 32, 32, 98] = [[97], [32], [98]] := by
  constructor
  · intro x t ht
    unfold cobeSplit at ht
    by_cases hs : (strip x).isEmpty
    · simp [hs] at ht
    · simp only [hs, if_neg, Bool.false_eq_true, if_false, collapse,
        List.mem_map] at ht
      obtain ⟨t0, _, rfl⟩ := ht
      by_cases hc : t0.head? = some 32 ∧ 1 < t0.length
      · simp only [collapseTok, if_pos hc]
        constructor
        · intro h
          simp at h
        · intro _
          simp
      · simp only [collapseTok, if_neg hc]
        refine ⟨hc, ?_⟩
        intro hall
        by_contra hlen
        apply hc
        match t0, hlen with
        | a :: t1, hlen =>
          have ha : a = 32 := hall a (by simp)
          refine ⟨by simp [ha], by omega⟩
  · decide

theorem claim_C7_witness :
    [32] ∈ cobeSplit [97, 32, 32, 32, 98] ∧
    ¬(([32] : List Nat).head? = some 32 ∧ 1 < ([32] : List Nat).length) :=
  ⟨by decide, (claim_C7_amended.1 [97, 32, 32, 32, 98] [32] (by decide)).1⟩

lemma length_dropWhile_le (p : Nat → Bool) :
    ∀ l : List Nat, (l.dropWhile p).length ≤ l.length := by
  intro l
  induction l with
  | nil => simp
  | cons c rest ih =>
    by_cases hc : p c
    · rw [List.dropWhile_cons_of_pos hc]
      exact le_trans ih (by simp)
    · rw [List.dropWhile_cons_of_neg hc]

lemma pySplitAux_nil : ∀ f, pySplitAux f [] = [] := by
  intro f
  cases f <;> rfl

lemma pySplitAux_fuel :
    ∀ (f g : Nat) (l : List Nat), l.length ≤ f → l.length ≤ g →
      pySplitAux f l = pySplitAux g l := by
  intro f
  induction f with
  | zero =>
    intro g l hf _
    have hl : l = [] := List.length_eq_zero.mp (Nat.le_zero.mp hf)
    subst hl
    rw [pySplitAux_nil, pySplitAux_nil]
  | succ f ih =>
    intro g l hf hg
    match l with
    | [] => rw [pySplitAux_nil, pySplitAux_nil]
    | c :: rest =>
      match g, hg with
      | g + 1, hg =>
        simp only [List.length_cons, Nat.add_le_add_iff_right] at hf hg
        by_cases hc : isSpaceCh c
        · simp only [pySplitAux, hc, if_true]
          exact ih g rest hf hg
        · simp only [pySplitAux, hc, Bool.false_eq_true, if_false]
          have hd : (c :: rest).dropWhile (fun d => !isSpaceCh d) =
              rest.dropWhile (fun d => !isSpaceCh d) := by
            rw [List.dropWhile_cons_of_pos (by simp [hc])]
          rw [hd]
          congr 1
          exact ih g _ (le_trans (length_dropWhile_le _ rest) hf)
            (le_trans (length_dropWhile_le _ rest) hg)

lemma wsSplit_cons_space {c : Nat} (rest : List Nat) (hc : isSpaceCh c = true) :
    wsSplit (c :: rest) = wsSplit rest := by
  unfold wsSplit
  show pySplitAux (rest.length + 1) (c :: rest) = _
  simp only [pySplitAux, hc, if_true]

lemma wsSplit_cons_nonspace {c : Nat} (rest : List Nat) (hc : isSpaceCh c = false) :
    wsSplit (c :: rest) =
      (c :: rest).takeWhile (fun d => !isSpaceCh d) ::
        wsSplit ((c :: rest).dropWhile (fun d => !isSpaceCh d)) := by
  unfold wsSplit
  show pySplitAux (rest.length + 1) (c :: rest) = _
  simp only [pySplitAux, hc, Bool.false_eq_true, if_false]
  congr 1
  have hd : (c :: rest).dropWhile (fun d => !isSpaceCh d) =
      rest.dropWhile (fun d => !isSpaceCh d) := by
    rw [List.dropWhile_cons_of_pos (by simp [hc])]
  rw [hd]
  exact pySplitAux_fuel _ _ _ (length_dropWhile_le _ rest) (le_refl _)

lemma wsSplit_tokens_aux :
    ∀ (n : Nat) (l : List Nat), l.length ≤ n →
      ∀ w ∈ wsSplit l, w ≠ [] ∧ ∀ c ∈ w, isSpaceCh c = false := by
  intro n
  induction n with
  | zero =>
    intro l hn w hw
    have hl : l = [] := List.length_eq_zero.mp (Nat.le_zero.mp hn)
    subst hl
    simp [wsSplit, pySplitAux_nil] at hw
  | succ n ih =>
    intro l hn w hw
    match l with
    | [] => simp [wsSplit, pySplitAux_nil] at hw
    | c :: rest =>
      simp only [List.length_cons, Nat.add_le_add_iff_right] at hn
      by_cases hc : isSpaceCh c
      · rw [wsSplit_cons_space rest hc] at hw
        exact ih rest hn w hw
      · rw [wsSplit_cons_nonspace rest (by simpa using hc)] at hw
        rcases List.mem_cons.mp hw with h | h
        · subst h
          constructor
          · rw [List.takeWhile_cons_of_pos (by simp [hc])]
            simp
          · intro d hd
            have := List.mem_takeWhile_imp hd
            simpa using this
        · have hdrop : (c :: rest).dropWhile (fun d => !isSpaceCh d) =
              rest.dropWhile (fun d => !isSpaceCh d) := by
            rw [List.dropWhile_cons_of_pos (by simp [hc])]
          rw [hdrop] at h
          exact ih _ (le_trans (length_dropWhile_le _ rest) hn) w h

lemma wsSplit_tokens (l : List Nat) :
    ∀ w ∈ wsSplit l, w ≠ [] ∧ ∀ c ∈ w, isSpaceCh c = false :=
  wsSplit_tokens_aux l.length l (le_refl _)

lemma intercalate_cons₂ (s : List Nat) (a b : List Nat) (t : List (List Nat)) :
    List.intercalate s (a :: b :: t) = a ++ s ++ List.intercalate s (b :: t) := by
  simp [List.intercalate, List.intersperse_cons_cons, List.append_assoc]

lemma wsSplit_join :
    ∀ ws : List (List Nat),
      (∀ w ∈ ws, w ≠ [] ∧ ∀ c ∈ w, isSpaceCh c = false) →
      wsSplit (wsJoin ws) = ws := by
  intro ws
  induction ws with
  | nil =>
    intro _
    simp [wsJoin, List.intercalate, wsSplit, pySplitAux_nil]
  | cons w ws ih =>
    intro h
    obtain ⟨hw, hwc⟩ := h w (by simp)
    match hww : w, hw with
    | c :: wrest, _ =>
      have hc : isSpaceCh c = false := hwc c (by simp)
      match ws with
      | [] =>
        have hj : wsJoin [c :: wrest] = c :: wrest := by
          simp [wsJoin, List.intercalate]
        rw [hj, wsSplit_cons_nonspace wrest hc]
        have htw : (c :: wrest).takeWhile (fun d => !isSpaceCh d) = c :: wrest := by
          rw [List.takeWhile_eq_self_iff]
          intro d hd
          simp [hwc d hd]
        have hdw : (c :: wrest).dropWhile (fun d => !isSpaceCh d) = [] := by
          rw [List.dropWhile_eq_nil_iff]
          intro d hd
          simp [hwc d hd]
        rw [htw, hdw]
        simp [wsSplit, pySplitAux_nil]
      | w' :: t =>
        have hj : wsJoin ((c :: wrest) :: w' :: t) =
            (c :: wrest) ++ 32 :: wsJoin (w' :: t) := by
          simp only [wsJoin, intercalate_cons₂]
          simp
        rw [hj]
        show wsSplit (c :: (wrest ++ 32 :: wsJoin (w' :: t))) = _
        rw [wsSplit_cons_nonspace _ hc]
        have hall : ∀ d ∈ c :: wrest, (!isSpaceCh d) = true := by
          intro d hd
          simp [hwc d hd]
        have htw : (c :: (wrest ++ 32 :: wsJoin (w' :: t))).takeWhile
            (fun d => !isSpaceCh d) = c :: wrest := by
          show ((c :: wrest) ++ 32 :: wsJoin (w' :: t)).takeWhile
              (fun d => !isSpaceCh d) = c :: wrest
          rw [List.takeWhile_append_of_pos hall,
            List.takeWhile_cons_of_neg (by simp [isSpaceCh])]
          simp
        have hdw : (c :: (wrest ++ 32 :: wsJoin (w' :: t))).dropWhile
            (fun d => !isSpaceCh d) = 32 :: wsJoin (w' :: t) := by
          show ((c :: wrest) ++ 32 :: wsJoin (w' :: t)).dropWhile
              (fun d => !isSpaceCh d) = 32 :: wsJoin (w' :: t)
          rw [List.dropWhile_append_of_pos hall,
            List.dropWhile_cons_of_neg (by simp [isSpaceCh])]
        rw [htw, hdw, wsSplit_cons_space _ (by simp [isSpaceCh])]
        rw [ih (fun v hv => h v (by simp [hv]))]

lemma wsNorm_idem (x : List Nat) : wsNorm (wsNorm x) = wsNorm x := by
  unfold wsNorm
  rw [wsSplit_join (wsSplit x) (wsSplit_tokens x)]

lemma isAlphaCh_iff (c : Nat) :
    isAlphaCh c = true ↔ (65 ≤ c ∧ c ≤ 90) ∨ (97 ≤ c ∧ c ≤ 122) := by
  unfold isAlphaCh
  simp [Bool.or_eq_true, Bool.and_eq_true, decide_eq_true_eq]

lemma isAlphaCh_false_iff (c : Nat) :
    isAlphaCh c = false ↔ ¬((65 ≤ c ∧ c ≤ 90) ∨ (97 ≤ c ∧ c ≤ 122)) := by
  rw [← isAlphaCh_iff]
  simp

lemma upper_upper (c : Nat) : upperCh (upperCh c) = upperCh c := by
  unfold upperCh
  split_ifs <;> omega

lemma lower_upper_lower (c : Nat) : lowerCh (upperCh (lowerCh c)) = lowerCh c := by
  unfold lowerCh upperCh
  split_ifs <;> omega

lemma isAlpha_upper (c : Nat) : isAlphaCh (upperCh c) = isAlphaCh c := by
  rw [Bool.eq_iff_iff, isAlphaCh_iff, isAlphaCh_iff]
  unfold upperCh
  split_ifs <;> omega

lemma isAlpha_lower (c : Nat) : isAlphaCh (lowerCh c) = isAlphaCh c := by
  rw [Bool.eq_iff_iff, isAlphaCh_iff, isAlphaCh_iff]
  unfold lowerCh
  split_ifs <;> omega

lemma upper_nonalpha {c : Nat} (h : isAlphaCh c = false) : upperCh c = c := by
  rw [isAlphaCh_false_iff] at h
  unfold upperCh
  split_ifs with h1
  · omega
  · rfl

lemma groupRunsAux_nil (f : Nat → Nat) : ∀ n, groupRunsAux f n [] = [] := by
  intro n
  cases n <;> rfl

lemma groupRuns_flatten (f : Nat → Nat) :
    ∀ (n : Nat) (l : List Nat), l.length ≤ n →
      (groupRunsAux f n l).flatten = l := by
  intro n
  induction n with
  | zero =>
    intro l hn
    have hl : l = [] := List.length_eq_zero.mp (Nat.le_zero.mp hn)
    subst hl
    simp [groupRunsAux_nil]
  | succ n ih =>
    intro l hn
    match l with
    | [] => simp [groupRunsAux_nil]
    | c :: rest =>
      simp only [List.length_cons, Nat.add_le_add_iff_right] at hn
      show ((c :: rest).takeWhile (fun d => f d == f c) ::
          groupRunsAux f n ((c :: rest).dropWhile (fun d => f d == f c))).flatten = _
      rw [List.flatten_cons]
      have hd : (c :: rest).dropWhile (fun d => f d == f c) =
          rest.dropWhile (fun d => f d == f c) := by
        rw [List.dropWhile_cons_of_pos (by simp)]
      rw [hd, ih _ (le_trans (length_dropWhile_le _ rest) hn)]
      have := List.takeWhile_append_dropWhile (l := c :: rest)
        (p := fun d => f d == f c)
      rw [← hd]
      exact this

lemma joinCapsAux_cons (c : Nat) (rest : List Nat) (i : Nat) (s : Bool)
    (p : Option Nat) :
    joinCapsAux (c :: rest) i s p =
      if isAlphaCh c then
        (if s then upperCh c else lowerCh c) ::
          joinCapsAux rest (i + 1) false (some (if s then upperCh c else lowerCh c))
      else
        c :: joinCapsAux rest (i + 1)
          (if 2 < i ∧ isTermOpt p ∧ isSpaceCh c then true else s) (some c) := by
  by_cases h : isAlphaCh c = true
  · simp only [joinCapsAux, if_pos h]
  · simp only [joinCapsAux, if_neg h]

lemma joinCapsAux_ne_nil (c : Nat) (rest : List Nat) (i : Nat) (s : Bool)
    (p : Option Nat) : joinCapsAux (c :: rest) i s p ≠ [] := by
  rw [joinCapsAux_cons]
  split_ifs <;> simp

lemma joinCaps_length : ∀ (u : List Nat) (i : Nat) (s : Bool) (p : Option Nat),
    (joinCapsAux u i s p).length = u.length := by
  intro u
  induction u with
  | nil => intro i s p; rfl
  | cons c rest ih =>
    intro i s p
    rw [joinCapsAux_cons]
    split_ifs <;> simp [ih]

lemma getLast?_cons_ne {d : Nat} {X : List Nat} (h : X ≠ []) :
    (d :: X).getLast? = X.getLast? := by
  match X, h with
  | x :: t, _ => rw [List.getLast?_cons_cons]

lemma joinCaps_getLast? :
    ∀ (u : List Nat) (i : Nat) (s : Bool) (p : Option Nat) (c : Nat),
      u.getLast? = some c → isAlphaCh c = false →
      (joinCapsAux u i s p).getLast? = some c := by
  intro u
  induction u with
  | nil => intro i s p c hc _; simp at hc
  | cons a rest ih =>
    intro i s p c hc hal
    match rest with
    | [] =>
      simp only [List.getLast?_singleton, Option.some.injEq] at hc
      subst hc
      rw [joinCapsAux_cons, if_neg (by simp [hal])]
      rfl
    | b :: t =>
      rw [List.getLast?_cons_cons] at hc
      rw [joinCapsAux_cons]
      by_cases ha : isAlphaCh a = true
      · rw [if_pos ha, getLast?_cons_ne (joinCapsAux_ne_nil b t _ _ _)]
        exact ih _ _ _ c hc hal
      · rw [if_neg ha, getLast?_cons_ne (joinCapsAux_ne_nil b t _ _ _)]
        exact ih _ _ _ c hc hal

lemma joinCaps_idem :
    ∀ (u : List Nat) (i : Nat) (s : Bool) (p : Option Nat),
      joinCapsAux ((joinCapsAux u i s p).map upperCh) i s p =
        joinCapsAux u i s p := by
  intro u
  induction u with
  | nil => intro i s p; rfl
  | cons c rest ih =>
    intro i s p
    by_cases ha : isAlphaCh c = true
    · rcases s with _ | _
      · rw [joinCapsAux_cons, if_pos ha]
        simp only [Bool.false_eq_true, if_false]
        rw [List.map_cons]
        have hau : isAlphaCh (upperCh (lowerCh c)) = true := by
          rw [isAlpha_upper, isAlpha_lower]; exact ha
        rw [joinCapsAux_cons, if_pos hau]
        simp only [Bool.false_eq_true, if_false]
        rw [lower_upper_lower]
        rw [ih (i + 1) false (some (lowerCh c))]
      · rw [joinCapsAux_cons, if_pos ha]
        simp only [if_true]
        rw [List.map_cons]
        have hau : isAlphaCh (upperCh (upperCh c)) = true := by
          rw [isAlpha_upper, isAlpha_upper]; exact ha
        rw [joinCapsAux_cons, if_pos hau]
        simp only [if_true]
        rw [upper_upper, upper_upper]
        rw [ih (i + 1) false (some (upperCh c))]
    · have ha' : isAlphaCh c = false := by
        rcases hb : isAlphaCh c with _ | _
        · rfl
        · exact absurd hb ha
      rw [joinCapsAux_cons, if_neg (by simp [ha']), List.map_cons,
        upper_nonalpha ha']
      rw [joinCapsAux_cons, if_neg (by simp [ha'])]
      rw [ih (i + 1) _ (some c)]

lemma isEmpty_false_of_ne_nil {x : List Nat} (hx : x ≠ []) :
    x.isEmpty = false := by
  match x, hx with
  | c :: t, _ => rfl

lemma megaNorm_eq {x : List Nat} (hx : x ≠ []) :
    megaNorm x = joinCapsAux ((withTerm x).map upperCh) 0 true none := by
  unfold megaNorm megaJoin megaSplit
  simp only [isEmpty_false_of_ne_nil hx, Bool.false_eq_true, if_false]
  show joinCapsAux ((groupRunsAux mhClass ((withTerm x).map upperCh).length
      ((withTerm x).map upperCh)).flatten) 0 true none = _
  rw [groupRuns_flatten mhClass _ _ (le_refl _)]

lemma withTerm_ne_nil {x : List Nat} (hx : x ≠ []) : withTerm x ≠ [] := by
  unfold withTerm
  rcases h : x.getLast? with _ | c
  · exact hx
  · show (if c = 46 ∨ c = 33 ∨ c = 63 then x else x ++ [46]) ≠ []
    split_ifs
    · exact hx
    · simp

lemma withTerm_getLast {x : List Nat} (hx : x ≠ []) :
    ∃ c, (withTerm x).getLast? = some c ∧ (c = 46 ∨ c = 33 ∨ c = 63) := by
  unfold withTerm
  rcases h : x.getLast? with _ | c
  · rw [List.getLast?_eq_none_iff] at h
    exact absurd h hx
  · show ∃ d, (if c = 46 ∨ c = 33 ∨ c = 63 then x else x ++ [46]).getLast? =
        some d ∧ (d = 46 ∨ d = 33 ∨ d = 63)
    split_ifs with hc
    · exact ⟨c, h, hc⟩
    · exact ⟨46, List.getLast?_concat x, Or.inl rfl⟩

lemma term_nonalpha {c : Nat} (hc : c = 46 ∨ c = 33 ∨ c = 63) :
    isAlphaCh c = false := by
  rw [isAlphaCh_false_iff]
  omega

lemma term_upper {c : Nat} (hc : c = 46 ∨ c = 33 ∨ c = 63) : upperCh c = c := by
  unfold upperCh
  split_ifs <;> omega

lemma megaNorm_getLast {x : List Nat} (hx : x ≠ []) :
    ∃ c, (megaNorm x).getLast? = some c ∧ (c = 46 ∨ c = 33 ∨ c = 63) := by
  obtain ⟨c, hlast, hterm⟩ := withTerm_getLast hx
  refine ⟨c, ?_, hterm⟩
  rw [megaNorm_eq hx]
  have hmap : ((withTerm x).map upperCh).getLast? = some c := by
    rw [List.getLast?_map, hlast]
    simp [term_upper hterm]
  exact joinCaps_getLast? _ 0 true none c hmap (term_nonalpha hterm)

lemma megaNorm_ne_nil {x : List Nat} (hx : x ≠ []) : megaNorm x ≠ [] := by
  rw [megaNorm_eq hx]
  intro h
  have hlen := joinCaps_length ((withTerm x).map upperCh) 0 true none
  rw [h] at hlen
  simp only [List.length_nil, List.length_map] at hlen
  exact withTerm_ne_nil hx (List.length_eq_zero.mp hlen.symm)

lemma withTerm_of_terminated {y : List Nat} {c : Nat}
    (h : y.getLast? = some c) (hc : c = 46 ∨ c = 33 ∨ c = 63) :
    withTerm y = y := by
  unfold withTerm
  rw [h]
  show (if c = 46 ∨ c = 33 ∨ c = 63 then y else y ++ [46]) = y
  rw [if_pos hc]

lemma megaNorm_idem (x : List Nat) : megaNorm (megaNorm x) = megaNorm x := by
  by_cases hx : x = []
  · subst hx
    rfl
  · obtain ⟨c, hlast, hterm⟩ := megaNorm_getLast hx
    rw [megaNorm_eq (megaNorm_ne_nil hx),
      withTerm_of_terminated hlast hterm, megaNorm_eq hx]
    exact joinCaps_idem ((withTerm x).map upperCh) 0 true none

lemma isSpaceCh_iff (c : Nat) :
    isSpaceCh c = true ↔
      c = 32 ∨ c = 9 ∨ c = 10 ∨ c = 11 ∨ c = 12 ∨ c = 13 := by
  unfold isSpaceCh
  simp only [Bool.or_eq_true, decide_eq_true_eq]
  omega

lemma isWordCh_iff (c : Nat) :
    isWordCh c = true ↔
      (65 ≤ c ∧ c ≤ 90) ∨ (97 ≤ c ∧ c ≤ 122) ∨ (48 ≤ c ∧ c ≤ 57) ∨ c = 95 := by
  unfold isWordCh isAlphaCh isDigitCh
  simp only [Bool.or_eq_true, Bool.and_eq_true, decide_eq_true_eq]
  omega

lemma isWordAposDash_iff (c : Nat) :
    isWordAposDash c = true ↔ isWordCh c = true ∨ c = 39 ∨ c = 45 := by
  unfold isWordAposDash
  simp only [Bool.or_eq_true, decide_eq_true_eq]
  tauto

lemma word_imp_wad {c : Nat} (h : isWordCh c = true) :
    isWordAposDash c = true := by
  rw [isWordAposDash_iff]
  exact Or.inl h

lemma word_not_space {c : Nat} (h : isWordCh c = true) : isSpaceCh c = false := by
  rw [isWordCh_iff] at h
  rcases hs : isSpaceCh c with _ | _
  · rfl
  · rw [isSpaceCh_iff] at hs
    omega

lemma wad_not_space {c : Nat} (h : isWordAposDash c = true) :
    isSpaceCh c = false := by
  rw [isWordAposDash_iff] at h
  rcases h with h | h | h
  · exact word_not_space h
  · subst h; rfl
  · subst h; rfl

lemma space_not_word {c : Nat} (h : isSpaceCh c = true) : isWordCh c = false := by
  rw [isSpaceCh_iff] at h
  rcases hs : isWordCh c with _ | _
  · rfl
  · rw [isWordCh_iff] at hs
    omega

lemma space_not_wad {c : Nat} (h : isSpaceCh c = true) :
    isWordAposDash c = false := by
  rw [isSpaceCh_iff] at h
  rcases hs : isWordAposDash c with _ | _
  · rfl
  · rw [isWordAposDash_iff] at hs
    rcases hs with hw | hw | hw
    · rw [isWordCh_iff] at hw
      omega
    · omega
    · omega

lemma wad_not_word {c : Nat} (hwad : isWordAposDash c = true)
    (hw : isWordCh c = false) : c = 39 ∨ c = 45 := by
  rw [isWordAposDash_iff] at hwad
  rcases hwad with h | h | h
  · rw [h] at hw; cases hw
  · exact Or.inl h
  · exact Or.inr h

lemma nonspace_ne_32 {c : Nat} (h : isSpaceCh c = false) : c ≠ 32 := by
  intro hc
  subst hc
  cases h

lemma dw_head_false {p : Nat → Bool} {l : List Nat} {c : Nat}
    (h : (l.dropWhile p).head? = some c) : p c = false := by
  have hd := List.head?_dropWhile_not p l
  rw [h] at hd
  exact hd

lemma tw_nil_of_head {p : Nat → Bool} {l : List Nat}
    (h : ∀ c, l.head? = some c → p c = false) : l.takeWhile p = [] := by
  match l with
  | [] => rfl
  | c :: t =>
    rw [List.takeWhile_cons_of_neg]
    simp [h c rfl]

lemma head?_append_some {a b : List Nat} {c : Nat} (h : a.head? = some c) :
    (a ++ b).head? = some c := by
  match a, h with
  | x :: t, h => exact h

lemma getLast?_append_some {a b : List Nat} {c : Nat} (h : b.getLast? = some c) :
    (a ++ b).getLast? = some c := by
  rw [List.getLast?_append, h]
  rfl

lemma eq_cons_of_head? {l : List Nat} {a : Nat} (h : l.head? = some a) :
    l = a :: l.tail := by
  match l, h with
  | x :: t, h =>
    simp only [List.head?_cons, Option.some.injEq] at h
    rw [h]
    rfl

lemma rtrim_spec (l : List Nat) :
    ∃ sp, rtrimSpaces l ++ sp = l ∧ ∀ c ∈ sp, isSpaceCh c = true := by
  refine ⟨(l.reverse.takeWhile isSpaceCh).reverse, ?_, ?_⟩
  · unfold rtrimSpaces
    rw [← List.reverse_append, List.takeWhile_append_dropWhile,
      List.reverse_reverse]
  · intro c hc
    rw [List.mem_reverse] at hc
    exact List.mem_takeWhile_imp hc

lemma rtrim_getLast {l : List Nat} {c : Nat}
    (h : (rtrimSpaces l).getLast? = some c) : isSpaceCh c = false := by
  unfold rtrimSpaces at h
  rw [List.getLast?_eq_head?_reverse, List.reverse_reverse] at h
  exact dw_head_false h

lemma rtrim_eq_self {l : List Nat}
    (h : ∀ c, l.getLast? = some c → isSpaceCh c = false) : rtrimSpaces l = l := by
  unfold rtrimSpaces
  have hd : l.reverse.dropWhile isSpaceCh = l.reverse := by
    match hr : l.reverse with
    | [] => rfl
    | a :: t =>
      have ha : l.getLast? = some a := by
        rw [List.getLast?_eq_head?_reverse, hr]
        rfl
      rw [List.dropWhile_cons_of_neg]
      simp [h a ha]
  rw [hd, List.reverse_reverse]

lemma rtrim_nil_all_space {l : List Nat} (h : rtrimSpaces l = []) :
    ∀ c ∈ l, isSpaceCh c = true := by
  unfold rtrimSpaces at h
  rw [List.reverse_eq_nil_iff] at h
  rw [List.dropWhile_eq_nil_iff] at h
  intro c hc
  exact h c (List.mem_reverse.mpr hc)

lemma rtrim_append_spaces {u sp : List Nat}
    (h : ∀ c ∈ sp, isSpaceCh c = true) :
    rtrimSpaces (u ++ sp) = rtrimSpaces u := by
  unfold rtrimSpaces
  rw [List.reverse_append, List.dropWhile_append_of_pos]
  intro a ha
  rw [List.mem_reverse] at ha
  exact h a ha

lemma rtrim_head {l : List Nat} (hne : rtrimSpaces l ≠ []) :
    (rtrimSpaces l).head? = l.head? := by
  obtain ⟨sp, hsp, _⟩ := rtrim_spec l
  match hr : rtrimSpaces l, hne with
  | a :: t, _ =>
    rw [hr] at hsp
    rw [← hsp]
    rfl

lemma rtrim_mem {l : List Nat} {c : Nat} (h : c ∈ rtrimSpaces l) : c ∈ l := by
  obtain ⟨sp, hsp, _⟩ := rtrim_spec l
  rw [← hsp]
  exact List.mem_append_left _ h

lemma cobeTok_ws {c : Nat} (rest : List Nat) (hc : isSpaceCh c = true) :
    cobeTok c rest = (c :: rest).takeWhile isSpaceCh := by
  unfold cobeTok
  rw [if_pos hc]

lemma cobeTok_url {c : Nat} (rest : List Nat) (hc : isSpaceCh c = false)
    (hw : isWordCh c = true)
    (h58 : ((c :: rest).dropWhile isWordCh).head? = some 58)
    (hsr : ((c :: rest).dropWhile isWordCh).tail.takeWhile
      (fun d => !isSpaceCh d) ≠ []) :
    cobeTok c rest = (c :: rest).takeWhile isWordCh ++
      58 :: ((c :: rest).dropWhile isWordCh).tail.takeWhile
        (fun d => !isSpaceCh d) := by
  unfold cobeTok
  rw [if_neg (by simp [hc]), if_pos hw, if_pos ⟨h58, hsr⟩]

lemma cobeTok_word2 {c : Nat} (rest : List Nat) (hc : isSpaceCh c = false)
    (hw : isWordCh c = true)
    (hno : ¬(((c :: rest).dropWhile isWordCh).head? = some 58 ∧
      ((c :: rest).dropWhile isWordCh).tail.takeWhile
        (fun d => !isSpaceCh d) ≠ [])) :
    cobeTok c rest = (c :: rest).takeWhile isWordAposDash := by
  unfold cobeTok
  rw [if_neg (by simp [hc]), if_pos hw, if_neg hno]

lemma cobeTok_wad {c : Nat} (rest : List Nat) (hc : isSpaceCh c = false)
    (hw : isWordCh c = false) (hwad : isWordAposDash c = true) :
    cobeTok c rest = (c :: rest).takeWhile isWordAposDash := by
  unfold cobeTok
  rw [if_neg (by simp [hc]), if_neg (by simp [hw]), if_pos hwad]

lemma cobeTok_punct1 {c : Nat} (rest : List Nat) (hc : isSpaceCh c = false)
    (hw : isWordCh c = false) (hwad : isWordAposDash c = false)
    (hu : rtrimSpaces (rest.takeWhile (fun d => !isWordCh d)) = []) :
    cobeTok c rest = [c] := by
  unfold cobeTok
  rw [if_neg (by simp [hc]), if_neg (by simp [hw]), if_neg (by simp [hwad]),
    if_pos (by rw [hu]; rfl)]

lemma cobeTok_punct2 {c : Nat} (rest : List Nat) (hc : isSpaceCh c = false)
    (hw : isWordCh c = false) (hwad : isWordAposDash c = false)
    (hu : rtrimSpaces (rest.takeWhile (fun d => !isWordCh d)) ≠ []) :
    cobeTok c rest =
      c :: rtrimSpaces (rest.takeWhile (fun d => !isWordCh d)) := by
  unfold cobeTok
  rw [if_neg (by simp [hc]), if_neg (by simp [hw]), if_neg (by simp [hwad]),
    if_neg (by simp [isEmpty_false_of_ne_nil hu])]

lemma cobeTok_head (c : Nat) (rest : List Nat) :
    (cobeTok c rest).head? = some c := by
  by_cases hc : isSpaceCh c = true
  · rw [cobeTok_ws rest hc, List.takeWhile_cons_of_pos hc]
    rfl
  · have hc' : isSpaceCh c = false := by
      rcases h : isSpaceCh c with _ | _
      · rfl
      · exact absurd h hc
    by_cases hw : isWordCh c = true
    · by_cases hurl : ((c :: rest).dropWhile isWordCh).head? = some 58 ∧
        ((c :: rest).dropWhile isWordCh).tail.takeWhile
          (fun d => !isSpaceCh d) ≠ []
      · rw [cobeTok_url rest hc' hw hurl.1 hurl.2]
        have : (c :: rest).takeWhile isWordCh = c :: rest.takeWhile isWordCh :=
          List.takeWhile_cons_of_pos hw
        rw [this]
        rfl
      · rw [cobeTok_word2 rest hc' hw hurl,
          List.takeWhile_cons_of_pos (word_imp_wad hw)]
        rfl
    · have hw' : isWordCh c = false := by
        rcases h : isWordCh c with _ | _
        · rfl
        · exact absurd h hw
      by_cases hwad : isWordAposDash c = true
      · rw [cobeTok_wad rest hc' hw' hwad, List.takeWhile_cons_of_pos hwad]
        rfl
      · have hwad' : isWordAposDash c = false := by
          rcases h : isWordAposDash c with _ | _
          · rfl
          · exact absurd h hwad
        by_cases hu : rtrimSpaces (rest.takeWhile (fun d => !isWordCh d)) = []
        · rw [cobeTok_punct1 rest hc' hw' hwad' hu]
          rfl
        · rw [cobeTok_punct2 rest hc' hw' hwad' hu]
          rfl

lemma cobeTok_ne_nil (c : Nat) (rest : List Nat) : cobeTok c rest ≠ [] := by
  intro h
  have := cobeTok_head c rest
  rw [h] at this
  cases this

lemma cobeTok_length_pos (c : Nat) (rest : List Nat) :
    0 < (cobeTok c rest).length := by
  rcases h : cobeTok c rest with _ | ⟨a, t⟩
  · exact absurd h (cobeTok_ne_nil c rest)
  · simp

lemma cobeTok_pref (c : Nat) (rest : List Nat) :
    ∃ z, cobeTok c rest ++ z = c :: rest := by
  by_cases hc : isSpaceCh c = true
  · exact ⟨(c :: rest).dropWhile isSpaceCh, by
      rw [cobeTok_ws rest hc, List.takeWhile_append_dropWhile]⟩
  · have hc' : isSpaceCh c = false := by
      rcases h : isSpaceCh c with _ | _
      · rfl
      · exact absurd h hc
    by_cases hw : isWordCh c = true
    · by_cases hurl : ((c :: rest).dropWhile isWordCh).head? = some 58 ∧
        ((c :: rest).dropWhile isWordCh).tail.takeWhile
          (fun d => !isSpaceCh d) ≠ []
      · refine ⟨((c :: rest).dropWhile isWordCh).tail.dropWhile
          (fun d => !isSpaceCh d), ?_⟩
        rw [cobeTok_url rest hc' hw hurl.1 hurl.2]
        rw [List.append_assoc, List.cons_append,
          List.takeWhile_append_dropWhile]
        rw [← eq_cons_of_head? hurl.1, List.takeWhile_append_dropWhile]
      · exact ⟨(c :: rest).dropWhile isWordAposDash, by
          rw [cobeTok_word2 rest hc' hw hurl, List.takeWhile_append_dropWhile]⟩
    · have hw' : isWordCh c = false := by
        rcases h : isWordCh c with _ | _
        · rfl
        · exact absurd h hw
      by_cases hwad : isWordAposDash c = true
      · exact ⟨(c :: rest).dropWhile isWordAposDash, by
          rw [cobeTok_wad rest hc' hw' hwad, List.takeWhile_append_dropWhile]⟩
      · have hwad' : isWordAposDash c = false := by
          rcases h : isWordAposDash c with _ | _
          · rfl
          · exact absurd h hwad
        by_cases hu : rtrimSpaces (rest.takeWhile (fun d => !isWordCh d)) = []
        · exact ⟨rest, by rw [cobeTok_punct1 rest hc' hw' hwad' hu]; rfl⟩
        · obtain ⟨sp, hsp, _⟩ :=
            rtrim_spec (rest.takeWhile (fun d => !isWordCh d))
          refine ⟨sp ++ rest.dropWhile (fun d => !isWordCh d), ?_⟩
          rw [cobeTok_punct2 rest hc' hw' hwad' hu, List.cons_append,
            ← List.append_assoc, hsp, List.takeWhile_append_dropWhile]

lemma cobeFindallAux_nil : ∀ f, cobeFindallAux f [] = [] := by
  intro f
  cases f <;> rfl

lemma cobeFindallAux_fuel :
    ∀ (f g : Nat) (l : List Nat), l.length ≤ f → l.length ≤ g →
      cobeFindallAux f l = cobeFindallAux g l := by
  intro f
  induction f with
  | zero =>
    intro g l hf _
    have hl : l = [] := List.length_eq_zero.mp (Nat.le_zero.mp hf)
    subst hl
    rw [cobeFindallAux_nil, cobeFindallAux_nil]
  | succ f ih =>
    intro g l hf hg
    match l with
    | [] => rw [cobeFindallAux_nil, cobeFindallAux_nil]
    | c :: rest =>
      match g, hg with
      | g + 1, hg =>
        simp only [List.length_cons, Nat.add_le_add_iff_right] at hf hg
        show cobeTok c rest :: cobeFindallAux f _ =
          cobeTok c rest :: cobeFindallAux g _
        congr 1
        have hlen : (((c :: rest)).drop (cobeTok c rest).length).length ≤
            rest.length := by
          rw [List.length_drop]
          have := cobeTok_length_pos c rest
          simp only [List.length_cons]
          omega
        exact ih g _ (le_trans hlen hf) (le_trans hlen hg)

lemma findall_cons (c : Nat) (rest : List Nat) :
    cobeFindall (c :: rest) =
      cobeTok c rest :: cobeFindall ((c :: rest).drop (cobeTok c rest).length) := by
  unfold cobeFindall
  show cobeTok c rest :: cobeFindallAux rest.length _ = _
  congr 1
  have hlen : (((c :: rest)).drop (cobeTok c rest).length).length ≤
      rest.length := by
    rw [List.length_drop]
    have := cobeTok_length_pos c rest
    simp only [List.length_cons]
    omega
  exact cobeFindallAux_fuel _ _ _ hlen (le_refl _)

lemma findall_eq_cons {c0 : Nat} {l0 m t : List Nat}
    (ht : cobeTok c0 l0 = t) (hm : t ++ m = c0 :: l0) :
    cobeFindall (c0 :: l0) = t :: cobeFindall m := by
  rw [findall_cons, ht]
  congr 1
  rw [← hm, List.drop_left]

lemma collapseTok_head? (t : List Nat) : (collapseTok t).head? = t.head? := by
  unfold collapseTok
  split_ifs with h
  · rw [h.1]
    rfl
  · rfl

lemma collapseTok_ne_nil {t : List Nat} (h : t ≠ []) : collapseTok t ≠ [] := by
  unfold collapseTok
  split_ifs
  · simp
  · exact h

lemma collapseTok_eq_of_head {t : List Nat} {c : Nat} (h : t.head? = some c)
    (h32 : c ≠ 32) : collapseTok t = t := by
  unfold collapseTok
  rw [if_neg]
  intro hcond
  rw [h] at hcond
  exact h32 (Option.some.injEq _ _ ▸ hcond.1)

lemma collapseTok_all_space {t : List Nat} (h : ∀ c ∈ t, isSpaceCh c = true) :
    ∀ c ∈ collapseTok t, isSpaceCh c = true := by
  unfold collapseTok
  split_ifs
  · intro c hc
    simp only [List.mem_singleton] at hc
    subst hc
    rfl
  · exact h

lemma collapseTok_idem (t : List Nat) :
    collapseTok (collapseTok t) = collapseTok t := by
  unfold collapseTok
  split_ifs <;> rfl

lemma collapse_collapse (ts : List (List Nat)) :
    collapse (collapse ts) = collapse ts := by
  unfold collapse
  induction ts with
  | nil => rfl
  | cons t ts ih =>
    simp only [List.map_cons, collapseTok_idem]
    simp only [List.map_cons] at ih
    rw [ih]

/-- The text produced by tokenizing a stripped string, collapsing, and
joining: the core of the Cobe normalization. -/
def ncol (s : List Nat) : List Nat :=
  (collapse (cobeFindall s)).flatten

lemma ncol_nil : ncol [] = [] := rfl

lemma ncol_eq {c0 : Nat} {l0 m t : List Nat} (ht : cobeTok c0 l0 = t)
    (hm : t ++ m = c0 :: l0) :
    ncol (c0 :: l0) = collapseTok t ++ ncol m := by
  unfold ncol
  rw [findall_eq_cons ht hm]
  rw [show collapse (t :: cobeFindall m) =
    collapseTok t :: collapse (cobeFindall m) from rfl]
  rw [List.flatten_cons]

lemma ncol_head (s : List Nat) : (ncol s).head? = s.head? := by
  match s with
  | [] => rfl
  | c :: rest =>
    obtain ⟨z, hz⟩ := cobeTok_pref c rest
    rw [ncol_eq rfl hz]
    have h1 : (collapseTok (cobeTok c rest)).head? = some c := by
      rw [collapseTok_head?, cobeTok_head]
    rw [head?_append_some h1]
    rfl

lemma ncol_ne_nil {s : List Nat} (h : s ≠ []) : ncol s ≠ [] := by
  match s, h with
  | c :: rest, _ =>
    intro hn
    have := ncol_head (c :: rest)
    rw [hn] at this
    cases this

lemma getLast?_isSome_of_ne_nil {l : List Nat} (h : l ≠ []) :
    ∃ e, l.getLast? = some e := by
  rcases he : l.getLast? with _ | e
  · rw [List.getLast?_eq_none_iff] at he
    exact absurd he h
  · exact ⟨e, rfl⟩

lemma tw_nw_cons_of_nonword {d : Nat} (z : List Nat) (hd : isWordCh d = false) :
    (d :: z).takeWhile (fun e => !isWordCh e) =
      d :: z.takeWhile (fun e => !isWordCh e) := by
  apply List.takeWhile_cons_of_pos (p := fun e => !isWordCh e)
  simp [hd]

lemma tw_ns_cons_of_nonspace {d : Nat} (z : List Nat) (hd : isSpaceCh d = false) :
    (d :: z).takeWhile (fun e => !isSpaceCh e) =
      d :: z.takeWhile (fun e => !isSpaceCh e) := by
  apply List.takeWhile_cons_of_pos (p := fun e => !isSpaceCh e)
  simp [hd]

lemma space_of_tw_ns_nil {d : Nat} {z : List Nat}
    (hz : (d :: z).takeWhile (fun e => !isSpaceCh e) = []) :
    isSpaceCh d = true := by
  rcases hb : isSpaceCh d with _ | _
  · rw [tw_ns_cons_of_nonspace z hb] at hz
    cases hz
  · rfl

lemma ncol_colon {z : List Nat}
    (hz : z.takeWhile (fun d => !isSpaceCh d) = []) :
    ∃ z', ncol (58 :: z) = 58 :: z' ∧
      z'.takeWhile (fun d => !isSpaceCh d) = [] := by
  have h58s : isSpaceCh 58 = false := by decide
  have h58w : isWordCh 58 = false := by decide
  have h58wad : isWordAposDash 58 = false := by decide
  have hzhead : ∀ d, z.head? = some d → isSpaceCh d = true := by
    intro d hd
    match z, hd, hz with
    | d0 :: z0, hd, hz =>
      simp only [List.head?_cons, Option.some.injEq] at hd
      subst hd
      exact space_of_tw_ns_nil hz
  by_cases hu : rtrimSpaces (z.takeWhile (fun d => !isWordCh d)) = []
  · have htok : cobeTok 58 z = [58] := cobeTok_punct1 z h58s h58w h58wad hu
    rw [ncol_eq htok rfl]
    rw [collapseTok_eq_of_head (t := [58]) (c := 58) rfl (by decide)]
    refine ⟨ncol z, rfl, ?_⟩
    refine tw_nil_of_head ?_
    intro c hc
    rw [ncol_head] at hc
    simp [hzhead c hc]
  · have htok := cobeTok_punct2 z h58s h58w h58wad hu
    obtain ⟨sp, hsp, hspall⟩ := rtrim_spec (z.takeWhile (fun d => !isWordCh d))
    have hm : (58 :: rtrimSpaces (z.takeWhile (fun d => !isWordCh d))) ++
        (sp ++ z.dropWhile (fun d => !isWordCh d)) = 58 :: z := by
      rw [List.cons_append, ← List.append_assoc, hsp,
        List.takeWhile_append_dropWhile]
    rw [ncol_eq htok hm]
    rw [collapseTok_eq_of_head
      (t := 58 :: rtrimSpaces (z.takeWhile (fun d => !isWordCh d)))
      (c := 58) rfl (by decide)]
    refine ⟨rtrimSpaces (z.takeWhile (fun d => !isWordCh d)) ++
      ncol (sp ++ z.dropWhile (fun d => !isWordCh d)),
      by rw [List.cons_append], ?_⟩
    have hzne : z ≠ [] := by
      intro h0
      subst h0
      exact hu rfl
    obtain ⟨d, z0, rfl⟩ : ∃ d z0, z = d :: z0 := by
      match z, hzne with
      | d :: z0, _ => exact ⟨d, z0, rfl⟩
    have hd : isSpaceCh d = true := hzhead d rfl
    have huh : (rtrimSpaces ((d :: z0).takeWhile
        (fun e => !isWordCh e))).head? = some d := by
      rw [rtrim_head hu, tw_nw_cons_of_nonword z0 (space_not_word hd)]
      rfl
    refine tw_nil_of_head ?_
    intro c hc
    rw [head?_append_some huh] at hc
    simp only [Option.some.injEq] at hc
    subst hc
    simp [hd]

lemma ncol_nonword_spaces :
    ∀ (s : List Nat),
      (∀ c ∈ s.takeWhile (fun d => !isWordCh d), isSpaceCh c = true) →
      ∀ c ∈ (ncol s).takeWhile (fun d => !isWordCh d), isSpaceCh c = true := by
  intro s h
  match s with
  | [] =>
    intro c hc
    rw [ncol_nil] at hc
    cases hc
  | c0 :: rest =>
    by_cases hw : isWordCh c0 = true
    · have hnil : (ncol (c0 :: rest)).takeWhile (fun d => !isWordCh d) = [] := by
        refine tw_nil_of_head ?_
        intro d hd
        rw [ncol_head] at hd
        simp only [List.head?_cons, Option.some.injEq] at hd
        subst hd
        simp [hw]
      rw [hnil]
      intro c hc
      cases hc
    · have hw' : isWordCh c0 = false := by
        rcases hb : isWordCh c0 with _ | _
        · rfl
        · exact absurd hb hw
      have hc0 : isSpaceCh c0 = true := by
        refine h c0 ?_
        rw [tw_nw_cons_of_nonword rest hw']
        simp
      have htok : cobeTok c0 rest = (c0 :: rest).takeWhile isSpaceCh :=
        cobeTok_ws rest hc0
      have hm : (c0 :: rest).takeWhile isSpaceCh ++
          (c0 :: rest).dropWhile isSpaceCh = c0 :: rest :=
        List.takeWhile_append_dropWhile _ _
      rw [ncol_eq htok hm]
      have htokall : ∀ a ∈ (c0 :: rest).takeWhile isSpaceCh,
          isSpaceCh a = true := fun a ha => List.mem_takeWhile_imp ha
      have hctokall : ∀ a ∈ collapseTok ((c0 :: rest).takeWhile isSpaceCh),
          isSpaceCh a = true := collapseTok_all_space htokall
      have hctoknw : ∀ a ∈ collapseTok ((c0 :: rest).takeWhile isSpaceCh),
          (fun d => !isWordCh d) a = true := by
        intro a ha
        simp [space_not_word (hctokall a ha)]
      rw [List.takeWhile_append_of_pos hctoknw]
      have hrest : ((ncol ((c0 :: rest).dropWhile isSpaceCh)).takeWhile
          (fun d => !isWordCh d)) = [] := by
        refine tw_nil_of_head ?_
        intro d hd
        rw [ncol_head] at hd
        have hdns : isSpaceCh d = false := dw_head_false hd
        have hdw : isWordCh d = true := by
          by_contra hdw
          have hdw' : isWordCh d = false := by
            rcases hb : isWordCh d with _ | _
            · rfl
            · exact absurd hb hdw
          have hmem : d ∈ (c0 :: rest).takeWhile (fun e => !isWordCh e) := by
            have hsplit : (c0 :: rest).takeWhile (fun e => !isWordCh e) =
                (c0 :: rest).takeWhile isSpaceCh ++
                  ((c0 :: rest).dropWhile isSpaceCh).takeWhile
                    (fun e => !isWordCh e) := by
              conv_lhs => rw [← hm]
              rw [List.takeWhile_append_of_pos]
              intro a ha
              simp [space_not_word (htokall a ha)]
            rw [hsplit]
            refine List.mem_append_right _ ?_
            rw [eq_cons_of_head? hd, tw_nw_cons_of_nonword _ hdw']
            simp
          have hds := h d hmem
          rw [hds] at hdns
          cases hdns
        simp [hdw]
      rw [hrest, List.append_nil]
      exact hctokall

lemma cobeTok_getLast_nonspace {c : Nat} (rest : List Nat)
    (hc : isSpaceCh c = false) :
    ∃ d, (cobeTok c rest).getLast? = some d ∧ isSpaceCh d = false := by
  by_cases hw : isWordCh c = true
  · by_cases hurl : ((c :: rest).dropWhile isWordCh).head? = some 58 ∧
      ((c :: rest).dropWhile isWordCh).tail.takeWhile
        (fun d => !isSpaceCh d) ≠ []
    · rw [cobeTok_url rest hc hw hurl.1 hurl.2]
      obtain ⟨e, he⟩ := getLast?_isSome_of_ne_nil hurl.2
      refine ⟨e, ?_, ?_⟩
      · exact getLast?_append_some (by rw [getLast?_cons_ne hurl.2]; exact he)
      · have hmem := List.mem_of_getLast?_eq_some he
        have := List.mem_takeWhile_imp hmem
        simpa using this
    · rw [cobeTok_word2 rest hc hw hurl]
      have hne : (c :: rest).takeWhile isWordAposDash ≠ [] := by
        rw [List.takeWhile_cons_of_pos (word_imp_wad hw)]
        simp
      obtain ⟨e, he⟩ := getLast?_isSome_of_ne_nil hne
      refine ⟨e, he, ?_⟩
      exact wad_not_space
        (List.mem_takeWhile_imp (List.mem_of_getLast?_eq_some he))
  · have hw' : isWordCh c = false := by
      rcases hb : isWordCh c with _ | _
      · rfl
      · exact absurd hb hw
    by_cases hwad : isWordAposDash c = true
    · rw [cobeTok_wad rest hc hw' hwad]
      have hne : (c :: rest).takeWhile isWordAposDash ≠ [] := by
        rw [List.takeWhile_cons_of_pos hwad]
        simp
      obtain ⟨e, he⟩ := getLast?_isSome_of_ne_nil hne
      refine ⟨e, he, ?_⟩
      exact wad_not_space
        (List.mem_takeWhile_imp (List.mem_of_getLast?_eq_some he))
    · have hwad' : isWordAposDash c = false := by
        rcases hb : isWordAposDash c with _ | _
        · rfl
        · exact absurd hb hwad
      by_cases hu : rtrimSpaces (rest.takeWhile (fun d => !isWordCh d)) = []
      · rw [cobeTok_punct1 rest hc hw' hwad' hu]
        exact ⟨c, rfl, hc⟩
      · rw [cobeTok_punct2 rest hc hw' hwad' hu]
        obtain ⟨e, he⟩ := getLast?_isSome_of_ne_nil hu
        refine ⟨e, ?_, rtrim_getLast he⟩
        rw [getLast?_cons_ne hu]
        exact he

lemma ncol_getLast :
    ∀ (n : Nat) (s : List Nat), s.length ≤ n → ∀ c, s.getLast? = some c →
      isSpaceCh c = false →
      ∃ d, (ncol s).getLast? = some d ∧ isSpaceCh d = false := by
  intro n
  induction n with
  | zero =>
    intro s hn c hc _
    have hs : s = [] := List.length_eq_zero.mp (Nat.le_zero.mp hn)
    subst hs
    cases hc
  | succ n ih =>
    intro s hn c hc hcs
    match s with
    | [] => cases hc
    | c0 :: rest =>
      obtain ⟨z, hz⟩ := cobeTok_pref c0 rest
      by_cases hzn : z = []
      · subst hzn
        have htokeq : cobeTok c0 rest = c0 :: rest := by
          rw [← List.append_nil (cobeTok c0 rest)]
          exact hz
        by_cases hsp : isSpaceCh c0 = true
        · exfalso
          have htok := cobeTok_ws rest hsp
          have hmem : c ∈ cobeTok c0 rest := by
            rw [htokeq]
            exact List.mem_of_getLast?_eq_some hc
          rw [htok] at hmem
          have hsp2 := List.mem_takeWhile_imp hmem
          rw [hsp2] at hcs
          cases hcs
        · have hsp' : isSpaceCh c0 = false := by
            rcases hb : isSpaceCh c0 with _ | _
            · rfl
            · exact absurd hb hsp
          obtain ⟨d, hd, hds⟩ := cobeTok_getLast_nonspace rest hsp'
          refine ⟨d, ?_, hds⟩
          rw [ncol_eq rfl hz, ncol_nil, List.append_nil]
          rw [collapseTok_eq_of_head (cobeTok_head c0 rest)
            (nonspace_ne_32 hsp')]
          exact hd
      · obtain ⟨e, he⟩ := getLast?_isSome_of_ne_nil hzn
        have hce : e = c := by
          have h1 : (cobeTok c0 rest ++ z).getLast? = some e :=
            getLast?_append_some he
          rw [hz, hc] at h1
          exact (Option.some.injEq _ _ ▸ h1).symm
        subst hce
        have hzlen : z.length ≤ n := by
          have hlen := congrArg List.length hz
          simp only [List.length_append, List.length_cons] at hlen
          have := cobeTok_length_pos c0 rest
          simp only [List.length_cons] at hn
          omega
        obtain ⟨d, hd, hds⟩ := ih z hzlen e he hcs
        refine ⟨d, ?_, hds⟩
        rw [ncol_eq rfl hz]
        exact getLast?_append_some hd

lemma to_false {b : Bool} (h : ¬b = true) : b = false := by
  rcases hb : b with _ | _
  · rfl
  · exact absurd hb h

lemma collapse_cons (t : List Nat) (ts : List (List Nat)) :
    collapse (t :: ts) = collapseTok t :: collapse ts := rfl

lemma dw_eq_self_of_head {p : Nat → Bool} {l : List Nat}
    (h : ∀ e, l.head? = some e → p e = false) : l.dropWhile p = l := by
  match l with
  | [] => rfl
  | c :: t =>
    rw [List.dropWhile_cons_of_neg]
    simp [h c rfl]

lemma mem_of_mem_dropWhile {p : Nat → Bool} {l : List Nat} {d : Nat}
    (h : d ∈ l.dropWhile p) : d ∈ l := by
  induction l with
  | nil => exact h
  | cons a t ih =>
    by_cases ha : p a
    · rw [List.dropWhile_cons_of_pos ha] at h
      exact List.mem_cons_of_mem a (ih h)
    · rw [List.dropWhile_cons_of_neg ha] at h
      exact h

lemma rtrim_nil_of_all {l : List Nat} (h : ∀ c ∈ l, isSpaceCh c = true) :
    rtrimSpaces l = [] := by
  unfold rtrimSpaces
  rw [List.dropWhile_eq_nil_iff.mpr]
  · rfl
  · intro x hx
    exact h x (List.mem_reverse.mp hx)

lemma z_len_le {c : Nat} {rest z t : List Nat} (ht : cobeTok c rest = t)
    (hm : t ++ z = c :: rest) {n : Nat} (hr : rest.length ≤ n) :
    z.length ≤ n := by
  have hlen := congrArg List.length hm
  simp only [List.length_append, List.length_cons] at hlen
  have hp := cobeTok_length_pos c rest
  rw [ht] at hp
  omega

lemma step_findall {c : Nat} {ct X : List Nat} (hhead : ct.head? = some c)
    (htok2 : cobeTok c (ct.tail ++ X) = ct) :
    cobeFindall (ct ++ X) = ct :: cobeFindall X := by
  have hctX : ct ++ X = c :: (ct.tail ++ X) := by
    conv_lhs => rw [eq_cons_of_head? hhead]
    rw [List.cons_append]
  rw [hctX]
  exact findall_eq_cons htok2 hctX

lemma ncol_head_nonspace {z : List Nat}
    (h : ∀ e, z.head? = some e → isSpaceCh e = false) :
    ∀ e, (ncol z).head? = some e → isSpaceCh e = false := by
  intro e he
  rw [ncol_head] at he
  exact h e he

lemma step_ws (c : Nat) (rest : List Nat) (hc : isSpaceCh c = true) :
    cobeFindall (collapseTok ((c :: rest).takeWhile isSpaceCh) ++
        ncol ((c :: rest).dropWhile isSpaceCh)) =
      collapseTok ((c :: rest).takeWhile isSpaceCh) ::
        cobeFindall (ncol ((c :: rest).dropWhile isSpaceCh)) := by
  have hthead : ((c :: rest).takeWhile isSpaceCh).head? = some c := by
    rw [List.takeWhile_cons_of_pos hc]
    rfl
  have hcthead : (collapseTok ((c :: rest).takeWhile isSpaceCh)).head? =
      some c := by
    rw [collapseTok_head?]
    exact hthead
  have hctall : ∀ a ∈ collapseTok ((c :: rest).takeWhile isSpaceCh),
      isSpaceCh a = true :=
    collapseTok_all_space (fun a ha => List.mem_takeWhile_imp ha)
  have hXhead : ∀ e, (ncol ((c :: rest).dropWhile isSpaceCh)).head? = some e →
      isSpaceCh e = false :=
    ncol_head_nonspace (fun e he => dw_head_false he)
  refine step_findall hcthead ?_
  rw [cobeTok_ws _ hc]
  have hshape : c :: ((collapseTok ((c :: rest).takeWhile isSpaceCh)).tail ++
      ncol ((c :: rest).dropWhile isSpaceCh)) =
      collapseTok ((c :: rest).takeWhile isSpaceCh) ++
        ncol ((c :: rest).dropWhile isSpaceCh) := by
    conv_rhs => rw [eq_cons_of_head? hcthead, List.cons_append]
  rw [hshape, List.takeWhile_append_of_pos hctall,
    tw_nil_of_head hXhead, List.append_nil]

lemma step_url (c : Nat) (rest wrun srun z : List Nat)
    (hc : isSpaceCh c = false) (hw : isWordCh c = true)
    (hwrun : (c :: rest).takeWhile isWordCh = wrun)
    (_h58 : ((c :: rest).dropWhile isWordCh).head? = some 58)
    (hsrun : ((c :: rest).dropWhile isWordCh).tail.takeWhile
      (fun d => !isSpaceCh d) = srun)
    (hz : ((c :: rest).dropWhile isWordCh).tail.dropWhile
      (fun d => !isSpaceCh d) = z)
    (hsr : srun ≠ []) :
    cobeFindall (collapseTok (wrun ++ 58 :: srun) ++ ncol z) =
      collapseTok (wrun ++ 58 :: srun) :: cobeFindall (ncol z) := by
  have hwrunc : wrun = c :: rest.takeWhile isWordCh := by
    rw [← hwrun, List.takeWhile_cons_of_pos hw]
  have hwrunall : ∀ a ∈ wrun, isWordCh a = true := by
    rw [← hwrun]
    exact fun a ha => List.mem_takeWhile_imp ha
  have hsrunall : ∀ a ∈ srun, (fun d => !isSpaceCh d) a = true := by
    rw [← hsrun]
    exact fun a ha =>
      List.mem_takeWhile_imp (p := fun d => !isSpaceCh d) ha
  have hthead : (wrun ++ (58 :: srun)).head? = some c := by
    rw [hwrunc]
    rfl
  have hct : collapseTok (wrun ++ (58 :: srun)) = wrun ++ (58 :: srun) :=
    collapseTok_eq_of_head hthead (nonspace_ne_32 hc)
  have hXns : ∀ e, (ncol z).head? = some e →
      (fun d => !isSpaceCh d) e = false := by
    intro e he
    rw [ncol_head, ← hz] at he
    exact dw_head_false he
  rw [hct]
  refine step_findall hthead ?_
  have htail : (wrun ++ (58 :: srun)).tail =
      rest.takeWhile isWordCh ++ (58 :: srun) := by
    rw [hwrunc]
    rfl
  rw [htail]
  have hstr : c :: ((rest.takeWhile isWordCh ++ (58 :: srun)) ++ ncol z) =
      wrun ++ (58 :: (srun ++ ncol z)) := by
    rw [hwrunc]
    simp [List.cons_append, List.append_assoc]
  have hafter2 : ((c :: ((rest.takeWhile isWordCh ++ (58 :: srun)) ++
      ncol z))).dropWhile isWordCh = 58 :: (srun ++ ncol z) := by
    rw [hstr, List.dropWhile_append_of_pos hwrunall,
      List.dropWhile_cons_of_neg (by decide)]
  have hsrun2 : (58 :: (srun ++ ncol z)).tail.takeWhile
      (fun d => !isSpaceCh d) = srun := by
    show (srun ++ ncol z).takeWhile (fun d => !isSpaceCh d) = srun
    rw [List.takeWhile_append_of_pos hsrunall, tw_nil_of_head hXns,
      List.append_nil]
  have htw2 : (c :: ((rest.takeWhile isWordCh ++ (58 :: srun)) ++
      ncol z)).takeWhile isWordCh = wrun := by
    rw [hstr, List.takeWhile_append_of_pos hwrunall,
      List.takeWhile_cons_of_neg (by decide), List.append_nil]
  rw [cobeTok_url _ hc hw (by rw [hafter2]; rfl)
    (by rw [hafter2, hsrun2]; exact hsr)]
  rw [htw2, hafter2, hsrun2]

lemma step_word2 (c : Nat) (rest t z : List Nat)
    (hc : isSpaceCh c = false) (hw : isWordCh c = true)
    (ht : (c :: rest).takeWhile isWordAposDash = t)
    (hz : (c :: rest).dropWhile isWordAposDash = z)
    (hno : ¬(((c :: rest).dropWhile isWordCh).head? = some 58 ∧
      ((c :: rest).dropWhile isWordCh).tail.takeWhile
        (fun d => !isSpaceCh d) ≠ [])) :
    cobeFindall (collapseTok t ++ ncol z) =
      collapseTok t :: cobeFindall (ncol z) := by
  have hthead : t.head? = some c := by
    rw [← ht, List.takeWhile_cons_of_pos (word_imp_wad hw)]
    rfl
  have htall : ∀ a ∈ t, isWordAposDash a = true := by
    rw [← ht]
    exact fun a ha => List.mem_takeWhile_imp ha
  have hct : collapseTok t = t := collapseTok_eq_of_head hthead (nonspace_ne_32 hc)
  have hmz : t ++ z = c :: rest := by
    rw [← ht, ← hz, List.takeWhile_append_dropWhile]
  have hXwad : ∀ e, (ncol z).head? = some e → isWordAposDash e = false := by
    intro e he
    rw [ncol_head, ← hz] at he
    exact dw_head_false he
  have htfull : t = c :: t.tail := eq_cons_of_head? hthead
  rw [hct]
  refine step_findall hthead ?_
  have hstr : c :: (t.tail ++ ncol z) = t ++ ncol z := by
    conv_rhs => rw [htfull, List.cons_append]
  have htw2 : (c :: (t.tail ++ ncol z)).takeWhile isWordAposDash = t := by
    rw [hstr, List.takeWhile_append_of_pos htall, tw_nil_of_head hXwad,
      List.append_nil]
  by_cases hr0 : t.dropWhile isWordCh = []
  · have htallw : ∀ a ∈ t, isWordCh a = true := List.dropWhile_eq_nil_iff.mp hr0
    have hXword : ∀ e, (ncol z).head? = some e → isWordCh e = false := by
      intro e he
      rcases hb : isWordCh e with _ | _
      · rfl
      · have hwad := hXwad e he
        rw [word_imp_wad hb] at hwad
        cases hwad
    have hafter2 : (c :: (t.tail ++ ncol z)).dropWhile isWordCh = ncol z := by
      rw [hstr, List.dropWhile_append_of_pos htallw, dw_eq_self_of_head hXword]
    rcases hXh : (ncol z).head? with _ | e
    · refine Eq.trans (cobeTok_word2 _ hc hw ?_) htw2
      intro hcontra
      have h1 := hcontra.1
      rw [hafter2, hXh] at h1
      cases h1
    · by_cases he58 : e = 58
      · subst he58
        have hzhead : z.head? = some 58 := by
          rw [← ncol_head]
          exact hXh
        have hzword : ∀ d, z.head? = some d → isWordCh d = false := by
          intro d hd
          rw [← hz] at hd
          have hwadf := dw_head_false hd
          rcases hb : isWordCh d with _ | _
          · rfl
          · rw [word_imp_wad hb] at hwadf
            cases hwadf
        have hafter : (c :: rest).dropWhile isWordCh = z := by
          rw [← hmz, List.dropWhile_append_of_pos htallw,
            dw_eq_self_of_head hzword]
        have hsrun0 : z.tail.takeWhile (fun d => !isSpaceCh d) = [] := by
          by_contra hne
          exact hno ⟨by rw [hafter]; exact hzhead, by rw [hafter]; exact hne⟩
        have hz58 : z = 58 :: z.tail := eq_cons_of_head? hzhead
        obtain ⟨z1, hz1, hz1ns⟩ := ncol_colon hsrun0
        have hXeq : ncol z = 58 :: z1 := by
          conv_lhs => rw [hz58]
          exact hz1
        refine Eq.trans (cobeTok_word2 _ hc hw ?_) htw2
        intro hcontra
        have h2 := hcontra.2
        rw [hafter2, hXeq] at h2
        exact h2 hz1ns
      · refine Eq.trans (cobeTok_word2 _ hc hw ?_) htw2
        intro hcontra
        have h1 := hcontra.1
        rw [hafter2, hXh] at h1
        simp only [Option.some.injEq] at h1
        exact he58 h1
  · obtain ⟨d, hd⟩ : ∃ d, (t.dropWhile isWordCh).head? = some d := by
      match h0 : t.dropWhile isWordCh, hr0 with
      | d :: l, _ => exact ⟨d, rfl⟩
    have hdword : isWordCh d = false := dw_head_false hd
    have hdmem : d ∈ t := by
      refine mem_of_mem_dropWhile (p := isWordCh) ?_
      rw [eq_cons_of_head? hd]
      simp
    have hdwad : isWordAposDash d = true := htall d hdmem
    have hd58 : d ≠ 58 := by
      rcases wad_not_word hdwad hdword with h | h <;> subst h <;> decide
    have hafter2 : (c :: (t.tail ++ ncol z)).dropWhile isWordCh =
        t.dropWhile isWordCh ++ ncol z := by
      rw [hstr, List.dropWhile_append,
        if_neg (by simp [isEmpty_false_of_ne_nil hr0])]
    refine Eq.trans (cobeTok_word2 _ hc hw ?_) htw2
    intro hcontra
    have h1 := hcontra.1
    rw [hafter2, head?_append_some hd] at h1
    simp only [Option.some.injEq] at h1
    exact hd58 h1

lemma step_wad (c : Nat) (rest t z : List Nat)
    (hc : isSpaceCh c = false) (hw : isWordCh c = false)
    (hwad : isWordAposDash c = true)
    (ht : (c :: rest).takeWhile isWordAposDash = t)
    (hz : (c :: rest).dropWhile isWordAposDash = z) :
    cobeFindall (collapseTok t ++ ncol z) =
      collapseTok t :: cobeFindall (ncol z) := by
  have hthead : t.head? = some c := by
    rw [← ht, List.takeWhile_cons_of_pos hwad]
    rfl
  have htall : ∀ a ∈ t, isWordAposDash a = true := by
    rw [← ht]
    exact fun a ha => List.mem_takeWhile_imp ha
  have hct : collapseTok t = t :=
    collapseTok_eq_of_head hthead (nonspace_ne_32 hc)
  have hXwad : ∀ e, (ncol z).head? = some e → isWordAposDash e = false := by
    intro e he
    rw [ncol_head, ← hz] at he
    exact dw_head_false he
  have htfull : t = c :: t.tail := eq_cons_of_head? hthead
  rw [hct]
  refine step_findall hthead ?_
  have hstr : c :: (t.tail ++ ncol z) = t ++ ncol z := by
    conv_rhs => rw [htfull, List.cons_append]
  have htw2 : (c :: (t.tail ++ ncol z)).takeWhile isWordAposDash = t := by
    rw [hstr, List.takeWhile_append_of_pos htall, tw_nil_of_head hXwad,
      List.append_nil]
  exact Eq.trans (cobeTok_wad _ hc hw hwad) htw2

lemma step_punct1 (c : Nat) (rest : List Nat)
    (hc : isSpaceCh c = false) (hw : isWordCh c = false)
    (hwad : isWordAposDash c = false)
    (hu : rtrimSpaces (rest.takeWhile (fun d => !isWordCh d)) = []) :
    cobeFindall (collapseTok [c] ++ ncol rest) =
      collapseTok [c] :: cobeFindall (ncol rest) := by
  have hct : collapseTok [c] = [c] :=
    collapseTok_eq_of_head rfl (nonspace_ne_32 hc)
  rw [hct]
  refine step_findall (c := c) rfl ?_
  have htail : ([c] : List Nat).tail ++ ncol rest = ncol rest := rfl
  rw [htail]
  have hallsp : ∀ a ∈ rest.takeWhile (fun d => !isWordCh d),
      isSpaceCh a = true := rtrim_nil_all_space hu
  have hX : ∀ a ∈ (ncol rest).takeWhile (fun d => !isWordCh d),
      isSpaceCh a = true := ncol_nonword_spaces rest hallsp
  exact cobeTok_punct1 _ hc hw hwad (rtrim_nil_of_all hX)

lemma step_punct2 (c : Nat) (rest u sp w : List Nat)
    (hc : isSpaceCh c = false) (hw : isWordCh c = false)
    (hwad : isWordAposDash c = false)
    (hu : rtrimSpaces (rest.takeWhile (fun d => !isWordCh d)) = u)
    (hune : u ≠ [])
    (_hsp : u ++ sp = rest.takeWhile (fun d => !isWordCh d))
    (hspall : ∀ a ∈ sp, isSpaceCh a = true)
    (hw2 : rest.dropWhile (fun d => !isWordCh d) = w) :
    cobeFindall (collapseTok (c :: u) ++ ncol (sp ++ w)) =
      collapseTok (c :: u) :: cobeFindall (ncol (sp ++ w)) := by
  have hct : collapseTok (c :: u) = c :: u :=
    collapseTok_eq_of_head rfl (nonspace_ne_32 hc)
  rw [hct]
  refine step_findall (c := c) rfl ?_
  have htail : (c :: u).tail ++ ncol (sp ++ w) = u ++ ncol (sp ++ w) := rfl
  rw [htail]
  have hznw : ∀ a ∈ (sp ++ w).takeWhile (fun d => !isWordCh d),
      isSpaceCh a = true := by
    have hspnw : ∀ a ∈ sp, (fun d => !isWordCh d) a = true := by
      intro a ha
      simp [space_not_word (hspall a ha)]
    rw [List.takeWhile_append_of_pos hspnw]
    have hwnil : w.takeWhile (fun d => !isWordCh d) = [] := by
      refine tw_nil_of_head ?_
      intro e he
      rw [← hw2] at he
      exact dw_head_false he
    rw [hwnil, List.append_nil]
    exact hspall
  have hXnw : ∀ a ∈ (ncol (sp ++ w)).takeWhile (fun d => !isWordCh d),
      isSpaceCh a = true := ncol_nonword_spaces _ hznw
  have huall : ∀ a ∈ u, (fun d => !isWordCh d) a = true := by
    intro a ha
    rw [← hu] at ha
    exact List.mem_takeWhile_imp (p := fun d => !isWordCh d) (rtrim_mem ha)
  have htwnw : (u ++ ncol (sp ++ w)).takeWhile (fun d => !isWordCh d) =
      u ++ (ncol (sp ++ w)).takeWhile (fun d => !isWordCh d) :=
    List.takeWhile_append_of_pos huall
  have hrt : rtrimSpaces ((u ++ ncol (sp ++ w)).takeWhile
      (fun d => !isWordCh d)) = u := by
    rw [htwnw, rtrim_append_spaces hXnw]
    refine rtrim_eq_self ?_
    intro e he
    rw [← hu] at he
    exact rtrim_getLast he
  have hres := cobeTok_punct2 (u ++ ncol (sp ++ w)) hc hw hwad
    (by rw [hrt]; exact hune)
  rw [hres, hrt]

lemma cobe_main :
    ∀ (n : Nat) (s : List Nat), s.length ≤ n →
      cobeFindall (ncol s) = collapse (cobeFindall s) := by
  intro n
  induction n with
  | zero =>
    intro s hn
    have hs : s = [] := List.length_eq_zero.mp (Nat.le_zero.mp hn)
    subst hs
    rfl
  | succ n ih =>
    intro s hn
    match s with
    | [] => rfl
    | c :: rest =>
      simp only [List.length_cons, Nat.add_le_add_iff_right] at hn
      by_cases hc : isSpaceCh c = true
      · have htok := cobeTok_ws rest hc
        have hmz : (c :: rest).takeWhile isSpaceCh ++
            (c :: rest).dropWhile isSpaceCh = c :: rest :=
          List.takeWhile_append_dropWhile _ _
        have hzlen := z_len_le htok hmz hn
        rw [ncol_eq htok hmz, findall_eq_cons htok hmz, collapse_cons,
          ← ih _ hzlen]
        exact step_ws c rest hc
      · have hc' := to_false hc
        by_cases hw : isWordCh c = true
        · by_cases hurl : ((c :: rest).dropWhile isWordCh).head? = some 58 ∧
            ((c :: rest).dropWhile isWordCh).tail.takeWhile
              (fun d => !isSpaceCh d) ≠ []
          · have htok := cobeTok_url rest hc' hw hurl.1 hurl.2
            have hmz : ((c :: rest).takeWhile isWordCh ++
                58 :: ((c :: rest).dropWhile isWordCh).tail.takeWhile
                  (fun d => !isSpaceCh d)) ++
                ((c :: rest).dropWhile isWordCh).tail.dropWhile
                  (fun d => !isSpaceCh d) = c :: rest := by
              rw [List.append_assoc, List.cons_append,
                List.takeWhile_append_dropWhile, ← eq_cons_of_head? hurl.1,
                List.takeWhile_append_dropWhile]
            have hzlen := z_len_le htok hmz hn
            rw [ncol_eq htok hmz, findall_eq_cons htok hmz, collapse_cons,
              ← ih _ hzlen]
            exact step_url c rest _ _ _ hc' hw rfl hurl.1 rfl rfl hurl.2
          · have htok := cobeTok_word2 rest hc' hw hurl
            have hmz : (c :: rest).takeWhile isWordAposDash ++
                (c :: rest).dropWhile isWordAposDash = c :: rest :=
              List.takeWhile_append_dropWhile _ _
            have hzlen := z_len_le htok hmz hn
            rw [ncol_eq htok hmz, findall_eq_cons htok hmz, collapse_cons,
              ← ih _ hzlen]
            exact step_word2 c rest _ _ hc' hw rfl rfl hurl
        · have hw' := to_false hw
          by_cases hwad : isWordAposDash c = true
          · have htok := cobeTok_wad rest hc' hw' hwad
            have hmz : (c :: rest).takeWhile isWordAposDash ++
                (c :: rest).dropWhile isWordAposDash = c :: rest :=
              List.takeWhile_append_dropWhile _ _
            have hzlen := z_len_le htok hmz hn
            rw [ncol_eq htok hmz, findall_eq_cons htok hmz, collapse_cons,
              ← ih _ hzlen]
            exact step_wad c rest _ _ hc' hw' hwad rfl rfl
          · have hwad' := to_false hwad
            by_cases hu : rtrimSpaces (rest.takeWhile (fun d => !isWordCh d)) = []
            · have htok := cobeTok_punct1 rest hc' hw' hwad' hu
              have hmz : ([c] : List Nat) ++ rest = c :: rest := rfl
              have hzlen : rest.length ≤ n := hn
              rw [ncol_eq htok hmz, findall_eq_cons htok hmz, collapse_cons,
                ← ih _ hzlen]
              exact step_punct1 c rest hc' hw' hwad' hu
            · obtain ⟨sp, hsp, hspall⟩ :=
                rtrim_spec (rest.takeWhile (fun d => !isWordCh d))
              have htok := cobeTok_punct2 rest hc' hw' hwad' hu
              have hmz : (c :: rtrimSpaces (rest.takeWhile
                  (fun d => !isWordCh d))) ++
                  (sp ++ rest.dropWhile (fun d => !isWordCh d)) = c :: rest := by
                rw [List.cons_append, ← List.append_assoc, hsp,
                  List.takeWhile_append_dropWhile]
              have hzlen := z_len_le htok hmz hn
              rw [ncol_eq htok hmz, findall_eq_cons htok hmz, collapse_cons,
                ← ih _ hzlen]
              exact step_punct2 c rest _ sp _ hc' hw' hwad' rfl hu hsp hspall rfl

lemma strip_head {x : List Nat} {c : Nat} (h : (strip x).head? = some c) :
    isSpaceCh c = false := by
  unfold strip at h
  have hne : rtrimSpaces (x.dropWhile isSpaceCh) ≠ [] := by
    intro h0
    rw [h0] at h
    cases h
  rw [rtrim_head hne] at h
  exact dw_head_false h

lemma strip_getLast {x : List Nat} {c : Nat} (h : (strip x).getLast? = some c) :
    isSpaceCh c = false := by
  unfold strip at h
  exact rtrim_getLast h

lemma strip_eq_self {l : List Nat}
    (hh : ∀ c, l.head? = some c → isSpaceCh c = false)
    (hl : ∀ c, l.getLast? = some c → isSpaceCh c = false) :
    strip l = l := by
  unfold strip
  rw [dw_eq_self_of_head hh]
  exact rtrim_eq_self hl

lemma cobeNorm_eq (x : List Nat) : cobeNorm x = ncol (strip x) := by
  unfold cobeNorm cobeJoin cobeSplit ncol
  by_cases h : (strip x).isEmpty = true
  · have hx : strip x = [] := by
      match hs : strip x, h with
      | [], _ => rfl
    rw [if_pos h, hx]
    rfl
  · rw [if_neg h]

lemma cobeNorm_idem (x : List Nat) : cobeNorm (cobeNorm x) = cobeNorm x := by
  rw [cobeNorm_eq, cobeNorm_eq]
  by_cases hs : strip x = []
  · rw [hs, ncol_nil]
    rfl
  · have hh : ∀ c, (ncol (strip x)).head? = some c → isSpaceCh c = false := by
      intro c hch
      rw [ncol_head] at hch
      exact strip_head hch
    have hlast : ∀ c, (ncol (strip x)).getLast? = some c →
        isSpaceCh c = false := by
      intro c hcl
      obtain ⟨e, he⟩ := getLast?_isSome_of_ne_nil hs
      have hes : isSpaceCh e = false := strip_getLast he
      obtain ⟨d, hd, hds⟩ :=
        ncol_getLast (strip x).length (strip x) (le_refl _) e he hes
      rw [hd] at hcl
      simp only [Option.some.injEq] at hcl
      exact hcl ▸ hds
    have hstr : strip (ncol (strip x)) = ncol (strip x) := strip_eq_self hh hlast
    rw [hstr]
    show (collapse (cobeFindall (ncol (strip x)))).flatten = ncol (strip x)
    rw [cobe_main (strip x).length (strip x) (le_refl _), collapse_collapse]
    rfl

/-- C6.  Each tokenizer policy induces a deterministic normalization
norm(x) = join(split(x)) (determinism is immediate: the embeddings are
functions), and for each of the three policies this normalization is
idempotent on every input text. -/
theorem claim_C6 :
    ∀ x : List Nat,
      wsNorm (wsNorm x) = wsNorm x ∧
      megaNorm (megaNorm x) = megaNorm x ∧
      cobeNorm (cobeNorm x) = cobeNorm x :=
  fun x => ⟨wsNorm_idem x, megaNorm_idem x, cobeNorm_idem x⟩

end Cobe
